import Mathlib

/-
  Verification development for the Interactive-Digital-Atlas repository.

  The Python sources are shallowly embedded below.  Text is modelled as
  `List Char`; Python `None` becomes `Option`; the floating-point similarity
  scores of `difflib.SequenceMatcher.ratio()` (always of the form 2*M/T with
  natural M, T) are modelled exactly as rationals built with `mkRat`.
  Python's `str.strip()` / regex `\s` strip the six ASCII whitespace
  characters that actually occur in this data; that set is used here.
-/

/-! ## Basic character and string utilities -/

def isSpaceChar (c : Char) : Bool :=
  c = ' ' || c = '\t' || c = '\n' || c = '\r' || c = '\x0b' || c = '\x0c'

/-- Model of Python `str.strip()`. -/
def strip (s : List Char) : List Char :=
  ((s.dropWhile isSpaceChar).reverse.dropWhile isSpaceChar).reverse

/-- First whitespace-delimited token, i.e. `s.split()[0]` for Python. -/
def firstToken (s : List Char) : List Char :=
  (s.dropWhile isSpaceChar).takeWhile (fun c => !(isSpaceChar c))

/-- Model of Python `str.lower()` (identity on the CJK characters used here). -/
def lowerList (s : List Char) : List Char := s.map Char.toLower

/-- Does `s` start with `pat`? -/
def startsWith : List Char → List Char → Bool
  | _, [] => true
  | [], _ :: _ => false
  | c :: cs, p :: ps => (c = p) && startsWith cs ps

/-- Model of the Python substring test `pat in s`. -/
def pyIn (pat : List Char) : List Char → Bool
  | [] => startsWith [] pat
  | c :: t => startsWith (c :: t) pat || pyIn pat t

/-- Numeric value of a run of decimal digit characters, as Python `int()`. -/
def digitsToNat (ds : List Char) : Nat :=
  ds.foldl (fun a c => 10 * a + (c.toNat - 48)) 0

/-- Fuelled decimal printer; fuel is structural so the kernel can evaluate it. -/
def natToDigitsF : Nat → Nat → List Char
  | 0, _ => []
  | f + 1, n =>
    if n < 10 then [Char.ofNat (48 + n)]
    else natToDigitsF f (n / 10) ++ [Char.ofNat (48 + n % 10)]

/-- Decimal digit string of a natural number, as produced by Python `str(n)`. -/
def natToDigits (n : Nat) : List Char := natToDigitsF (n + 1) n

/-! ## Era-to-year conversion

  Embeds `parse_chinese_year` (generate_atlas_ultra.py), `parse_chinese_era`
  (generate_atlas_advanced.py) and `parse_year` (generate_combined_map.py). -/

/-- Scanner for `re.search(r'(\d+)年', s)`: value of the first maximal digit
run that is immediately followed by the character 年.  The accumulator holds
the digit run seen so far. -/
def findYearAux : List Char → List Char → Option Nat
  | _, [] => none
  | run, c :: t =>
    if c.isDigit then findYearAux (run ++ [c]) t
    else if c = '年' && !run.isEmpty then some (digitsToNat run)
    else findYearAux [] t

def findYearNumber (s : List Char) : Option Nat := findYearAux [] s

/-- The `era_map` of generate_atlas_ultra.py, in source (insertion) order. -/
def eraListUltra : List (List Char × Int) :=
  [("光緒".data, 1875), ("宣統".data, 1909), ("民國".data, 1912), ("同治".data, 1862),
   ("嘉慶".data, 1796), ("道光".data, 1821), ("咸豐".data, 1851)]

/-- The `for era, base_year in era_map.items()` loop of `parse_chinese_year`. -/
def eraLoopUltra : List (List Char × Int) → List Char → Option Int
  | [], _ => none
  | (era, base) :: rest, s =>
    if pyIn era s then
      match findYearNumber s with
      | some off => some (base + (off : Int) - 1)
      | none => eraLoopUltra rest s
    else eraLoopUltra rest s

/-- `parse_chinese_year` from generate_atlas_ultra.py (string-input case). -/
def parse_chinese_year (s : List Char) : Option Int := eraLoopUltra eraListUltra s

/-- Matcher for `re.search(f'{era}(\d+)年', s)` at one position: `era`
immediately followed by a nonempty digit run immediately followed by 年. -/
def matchEraDigitsAt (era s : List Char) : Option Nat :=
  if startsWith s era then
    match (s.drop era.length).dropWhile Char.isDigit with
    | c :: _ =>
      if c = '年' && !((s.drop era.length).takeWhile Char.isDigit).isEmpty then
        some (digitsToNat ((s.drop era.length).takeWhile Char.isDigit))
      else none
    | [] => none
  else none

/-- Search version of `matchEraDigitsAt`, scanning left to right. -/
def matchEraDigits (era : List Char) : List Char → Option Nat
  | [] => matchEraDigitsAt era []
  | c :: t =>
    match matchEraDigitsAt era (c :: t) with
    | some n => some n
    | none => matchEraDigits era t

/-- The `era_mappings` dict of generate_atlas_advanced.py, in source order. -/
def eraListAdv : List (List Char × Int) :=
  [("光緒".data, 1875), ("宣統".data, 1909), ("咸豐".data, 1851), ("同治".data, 1862),
   ("道光".data, 1821), ("嘉慶".data, 1796)]

/-- The Qing-era loop of `parse_chinese_era`. -/
def eraLoopAdv : List (List Char × Int) → List Char → Option Int
  | [], _ => none
  | (era, base) :: rest, s =>
    match matchEraDigits era s with
    | some off => some (base + (off : Int) - 1)
    | none => eraLoopAdv rest s

/-- `parse_chinese_era` from generate_atlas_advanced.py. -/
def parse_chinese_era (s : List Char) : Option Int :=
  if s.isEmpty || strip s = "？".data then none
  else
    match matchEraDigits ("民國".data) (strip s) with
    | some n => some (1911 + (n : Int))
    | none => eraLoopAdv eraListAdv (strip s)

/-- Matcher for `re.search(f'{era}\s*(\d+)', s)` at one position: `era`, then
optional whitespace, then a nonempty digit run. -/
def matchEraWsAt (era s : List Char) : Option Nat :=
  if startsWith s era then
    let ds := ((s.drop era.length).dropWhile isSpaceChar).takeWhile Char.isDigit
    if ds.isEmpty then none else some (digitsToNat ds)
  else none

/-- Search version of `matchEraWsAt`, scanning left to right. -/
def matchEraWs (era : List Char) : List Char → Option Nat
  | [] => matchEraWsAt era []
  | c :: t =>
    match matchEraWsAt era (c :: t) with
    | some n => some n
    | none => matchEraWs era t

/-- `parse_year` from generate_combined_map.py.  A numeric `year_str` wins;
the era string is only consulted when the numeric year is absent. -/
def parse_year (yearVal : Option Int) (eraStr : List Char) : Option Int :=
  match yearVal with
  | some y => some y
  | none =>
    match matchEraWs ("民國".data) (strip eraStr) with
    | some n => some (1911 + (n : Int))
    | none =>
      match matchEraWs ("光緒".data) (strip eraStr) with
      | some n => some (1874 + (n : Int))
      | none =>
        match matchEraWs ("清".data) (strip eraStr) with
        | some n => some (1800 + (n : Int))
        | none => none

/-! ## Keyword categorization

  Embeds `categorize_book` from generate_atlas_ultra.py and from
  generate_atlas_advanced.py.  Categories are returned as the exact strings
  the Python code returns. -/

def periodicalKeysUltra : List (List Char) :=
  ["報".data, "月刊".data, "週刊".data, "雜誌".data, "書報社".data]

def theologyKeysUltra : List (List Char) :=
  ["天方".data, "教義".data, "信仰".data, "清真".data, "教規".data, "經學".data,
   "教法".data, "教理".data, "伊斯蘭".data]

def languageKeysUltra : List (List Char) :=
  ["詞典".data, "字典".data, "文法".data, "語法".data, "阿文".data, "阿拉伯".data,
   "波斯".data]

def historyKeysUltra : List (List Char) :=
  ["歷史".data, "史略".data, "朝覲".data, "遊記".data, "傳記".data]

/-- `categorize_book(title, publisher='')` from generate_atlas_ultra.py. -/
def categorize_book_ultra (title publisher : List Char) : String :=
  let t := lowerList title
  let p := lowerList publisher
  if periodicalKeysUltra.any (fun kw => pyIn kw t) || pyIn ("書報社".data) p then
    "Periodical"
  else if theologyKeysUltra.any (fun kw => pyIn kw t) then "Theology"
  else if languageKeysUltra.any (fun kw => pyIn kw t) then "Language"
  else if historyKeysUltra.any (fun kw => pyIn kw t) then "History"
  else "General"

def theologyKeysAdv : List (List Char) :=
  ["天方".data, "清真".data, "經".data, "教".data, "理".data, "道".data,
   "法".data, "聖".data]

def historyKeysAdv : List (List Char) :=
  ["史".data, "記".data, "遊".data, "覲".data, "途".data, "誌".data]

def languageKeysAdv : List (List Char) :=
  ["字".data, "語".data, "文".data, "典".data, "解".data]

def periodicalKeysAdv : List (List Char) :=
  ["報".data, "刊".data, "月刊".data, "週刊".data]

/-- `categorize_book(title)` from generate_atlas_advanced.py: note that the
theology keyword set is tested FIRST, before periodicals. -/
def categorize_book_advanced (title : List Char) : String :=
  let t := lowerList title
  if theologyKeysAdv.any (fun kw => pyIn kw t) then "theology"
  else if historyKeysAdv.any (fun kw => pyIn kw t) then "history"
  else if languageKeysAdv.any (fun kw => pyIn kw t) then "language"
  else if periodicalKeysAdv.any (fun kw => pyIn kw t) then "periodical"
  else "general"

/-! ## Alias normalization

  Embeds `clean_city_name` (generate_atlas.py), `standardize_city`
  (generate_atlas_ultra.py) and `standardize_city` (generate_combined_map.py),
  together with the paren-stripping regex `re.sub(r'\([^)]*\)', '', s)`. -/

/-- Association-list lookup, modelling Python dict lookup by exact key. -/
def alookup : List (List Char × List Char) → List Char → Option (List Char)
  | [], _ => none
  | (k, v) :: rest, key => if k = key then some v else alookup rest key

/-- Fuelled scanner for `re.sub(r'\([^)]*\)', '', s)`: each `(`, followed by a
run of non-`)` characters and a `)`, is deleted; a `(` with no later `)`
matches nothing and is kept. -/
def removeParensF : Nat → List Char → List Char
  | 0, s => s
  | _ + 1, [] => []
  | f + 1, c :: cs =>
    if c = '(' then
      match cs.dropWhile (fun d => d ≠ ')') with
      | _ :: after => removeParensF f after
      | [] => c :: removeParensF f cs
    else c :: removeParensF f cs

def removeParens (s : List Char) : List Char := removeParensF s.length s

/-- The `standardization_map` of generate_atlas.py `clean_city_name`. -/
def stdMapAtlas : List (List Char × List Char) :=
  [("北平".data, "北京".data), ("錦江".data, "成都".data), ("錦城".data, "成都".data),
   ("蓉城".data, "成都".data), ("星沙".data, "長沙".data), ("潤州".data, "鎮江".data),
   ("京口".data, "鎮江".data), ("京江".data, "鎮江".data), ("滇省".data, "雲南".data),
   ("粵東省城".data, "廣州".data), ("廣邑".data, "廣州".data), ("奉天".data, "瀋陽".data),
   ("燕湖".data, "北京".data)]

/-- The multi-city split of `clean_city_name`: when an ASCII space occurs,
only the first whitespace-delimited token is kept. -/
def tokenPart (c1 : List Char) : List Char :=
  if ' ' ∈ c1 then firstToken c1 else c1

/-- The token-splitting and paren-stripping core of `clean_city_name`,
applied after the initial strip. -/
def cleanCore (c1 : List Char) : List Char :=
  if '（' ∈ tokenPart c1 then strip ((tokenPart c1).takeWhile (fun c => c ≠ '（'))
  else tokenPart c1

/-- `clean_city_name` from generate_atlas.py. -/
def clean_city_name (s : List Char) : Option (List Char) :=
  if s.isEmpty || strip s = "？".data then none
  else
    match alookup stdMapAtlas (cleanCore (strip s)) with
    | some v => some v
    | none => some (cleanCore (strip s))

/-- Keys of the `CITY_COORDINATES` dict of generate_atlas_ultra.py, in source
(insertion) order; `standardize_city` iterates over exactly these keys. -/
def cityKeysUltra : List (List Char) :=
  ["北京".data, "北平".data, "上海".data, "天津".data, "成都".data, "錦江".data,
   "錦城".data, "蓉城".data, "南京".data, "長沙".data, "鎮江".data, "廣州".data,
   "瀋陽".data, "奉天".data, "昆明".data, "香港".data, "青海".data]

/-- The cleaning pass of the ultra `standardize_city`: strip parenthesised
text, delete every 市/省 character, then strip whitespace. -/
def ultraClean (s : List Char) : List Char :=
  strip ((removeParens s).filter (fun d => d ≠ '市' && d ≠ '省'))

/-- `standardize_city` from generate_atlas_ultra.py: clean, then return the
first coordinate key occurring as a substring, else the cleaned string
itself (None if empty). -/
def standardize_city_ultra (s : List Char) : Option (List Char) :=
  match cityKeysUltra.find? (fun k => pyIn k (ultraClean s)) with
  | some k => some k
  | none => if (ultraClean s).isEmpty then none else some (ultraClean s)

/-- The `city_map` of generate_combined_map.py `standardize_city`
(note: simplified characters, exactly as in the source). -/
def cityMapCombined : List (List Char × List Char) :=
  [("北平".data, "北京".data), ("京师".data, "北京".data), ("燕京".data, "北京".data),
   ("天津市".data, "天津".data), ("上海市".data, "上海".data), ("成都市".data, "成都".data),
   ("长沙市".data, "长沙".data), ("南京市".data, "南京".data), ("金陵".data, "南京".data),
   ("镇江市".data, "镇江".data), ("沈阳市".data, "沈阳".data), ("盛京".data, "沈阳".data),
   ("昆明市".data, "昆明".data), ("广州市".data, "广州".data), ("羊城".data, "广州".data)]

/-- The cleaning pass of the combined `standardize_city`: strip, remove
parenthesised text, strip again. -/
def combinedClean (s : List Char) : List Char := strip (removeParens (strip s))

/-- `standardize_city` from generate_combined_map.py (string-input case;
non-strings map to None before this logic is reached). -/
def standardize_city_combined (s : List Char) : List Char :=
  match alookup cityMapCombined (combinedClean s) with
  | some v => v
  | none => combinedClean s

/-- The `CITY_COORDINATES` dict of generate_atlas.py (coordinates as exact
decimal rationals). -/
def cityCoordsAtlas : List (List Char × (ℚ × ℚ)) :=
  [("北京".data, (mkRat 399042 10000, mkRat 1164074 10000)),
   ("北平".data, (mkRat 399042 10000, mkRat 1164074 10000)),
   ("上海".data, (mkRat 312304 10000, mkRat 1214737 10000)),
   ("天津".data, (mkRat 393434 10000, mkRat 1173616 10000)),
   ("南京".data, (mkRat 320603 10000, mkRat 1187969 10000)),
   ("成都".data, (mkRat 305728 10000, mkRat 1040668 10000)),
   ("錦江".data, (mkRat 305728 10000, mkRat 1040668 10000)),
   ("錦城".data, (mkRat 305728 10000, mkRat 1040668 10000)),
   ("蓉城".data, (mkRat 305728 10000, mkRat 1040668 10000)),
   ("長沙".data, (mkRat 282282 10000, mkRat 1129388 10000)),
   ("星沙".data, (mkRat 282282 10000, mkRat 1129388 10000)),
   ("奉天".data, (mkRat 418057 10000, mkRat 1234328 10000)),
   ("瀋陽".data, (mkRat 418057 10000, mkRat 1234328 10000)),
   ("鎮江".data, (mkRat 322109 10000, mkRat 1194552 10000)),
   ("潤州".data, (mkRat 322109 10000, mkRat 1194552 10000)),
   ("京口".data, (mkRat 322109 10000, mkRat 1194552 10000)),
   ("京江".data, (mkRat 322109 10000, mkRat 1194552 10000)),
   ("雲南".data, (mkRat 250406 10000, mkRat 1027125 10000)),
   ("滇省".data, (mkRat 250406 10000, mkRat 1027125 10000)),
   ("導河".data, (mkRat 362988 10000, mkRat 1029883 10000)),
   ("廣州".data, (mkRat 231291 10000, mkRat 1132644 10000)),
   ("粵東省城".data, (mkRat 231291 10000, mkRat 1132644 10000)),
   ("廣邑".data, (mkRat 231291 10000, mkRat 1132644 10000)),
   ("香港".data, (mkRat 223193 10000, mkRat 1141694 10000)),
   ("燕湖".data, (mkRat 399042 10000, mkRat 1164074 10000))]

/-- Coordinate lookup used by `geocode_city`. -/
def coordLookup : List (List Char × (ℚ × ℚ)) → List Char → Option (ℚ × ℚ)
  | [], _ => none
  | (k, v) :: rest, key => if k = key then some v else coordLookup rest key

/-- `geocode_city` from generate_atlas.py. -/
def geocode_city (name : List Char) : Option (ℚ × ℚ) :=
  if name.isEmpty then none else coordLookup cityCoordsAtlas name

/-- A raw record row as consumed by `read_and_process_csv`. -/
structure AtlasRow where
  title : List Char
  author : List Char
  city : List Char
  publisher : List Char
deriving DecidableEq

/-- A processed record produced by `read_and_process_csv`. -/
structure AtlasProcessed where
  title : List Char
  author : List Char
  city : List Char
  publisher : List Char
  cityClean : List Char
  coords : ℚ × ℚ
deriving DecidableEq

/-- `read_and_process_csv` from generate_atlas.py (the per-record core):
clean the city, drop records whose cleaned city is null, geocode, and drop
records without coordinates. -/
def read_and_process_csv (rows : List AtlasRow) : List AtlasProcessed :=
  rows.filterMap (fun r =>
    match clean_city_name r.city with
    | none => none
    | some cc =>
      match geocode_city cc with
      | none => none
      | some coord => some ⟨r.title, r.author, r.city, r.publisher, cc, coord⟩)

/-! ## OCR entry segmentation

  Embeds `parse_catalog_entries` (integrate_pdf_data.py) and
  `clean_ocr_text` / `extract_bibliographic_entries` (extract_pdf_data.py). -/

/-- One parsed catalog entry, the dict built by `parse_catalog_entries`. -/
structure PdfEntry where
  raw_line : List Char
  year_code : List Char
  text : List Char
deriving DecidableEq

/-- The `6[09][1-9T]` body of the year-code regex, matched at one position. -/
def yearCodeBody (s : List Char) : Option (List Char) :=
  match s with
  | a :: b :: d :: _ =>
    if a = '6' && (b = '0' || b = '9') && (d = 'T' || ('1' ≤ d && d ≤ '9')) then
      some [a, b, d]
    else none
  | _ => none

/-- Matcher for `re.search(r'["\x27]?6[09][1-9T]', line)` at one position:
the optional leading quote is taken greedily; when the first character is a
quote the quoteless alternative cannot match there. -/
def matchYearAt (s : List Char) : Option (List Char) :=
  match s with
  | [] => none
  | c :: rest =>
    if c = '"' || c = '\x27' then
      match yearCodeBody rest with
      | some code => some (c :: code)
      | none => none
    else yearCodeBody s

/-- Left-to-right search for the year-code pattern. -/
def searchYear : List Char → Option (List Char)
  | [] => none
  | c :: t =>
    match matchYearAt (c :: t) with
    | some code => some code
    | none => searchYear t

/-- One loop iteration of `parse_catalog_entries`: state is the current
entry (if any) and the accumulated output.  Blank lines are skipped with
`continue` — they do NOT flush the current entry. -/
def catStep (st : Option PdfEntry × List PdfEntry) (rawLine : List Char) :
    Option PdfEntry × List PdfEntry :=
  if (strip rawLine).isEmpty then st
  else
    match searchYear (strip rawLine) with
    | some code =>
      match st.1 with
      | some e => (some ⟨strip rawLine, code, strip rawLine⟩, st.2 ++ [e])
      | none => (some ⟨strip rawLine, code, strip rawLine⟩, st.2)
    | none =>
      match st.1 with
      | some e =>
        (some ⟨e.raw_line, e.year_code, e.text ++ ' ' :: strip rawLine⟩, st.2)
      | none => st

/-- Model of Python `str.split('\n')` (keeps empty pieces). -/
def splitLines : List Char → List (List Char)
  | [] => [[]]
  | c :: cs =>
    if c = '\n' then [] :: splitLines cs
    else
      match splitLines cs with
      | l :: ls => (c :: l) :: ls
      | [] => [[c]]

/-- `parse_catalog_entries` from integrate_pdf_data.py. -/
def parse_catalog_entries (t : List Char) : List PdfEntry :=
  match (splitLines t).foldl catStep (none, []) with
  | (some e, out) => out ++ [e]
  | (none, out) => out

/-- Scanner for `re.sub(r'\s+', ' ', text)`: each maximal whitespace run
becomes a single space.  The flag records whether the previous character was
part of a whitespace run. -/
def collapseAux : Bool → List Char → List Char
  | _, [] => []
  | inWs, c :: cs =>
    if isSpaceChar c then
      if inWs then collapseAux true cs else ' ' :: collapseAux true cs
    else c :: collapseAux false cs

/-- `clean_ocr_text` from extract_pdf_data.py: collapse whitespace, strip,
then replace every `|` by `I` and every `0` by `O`. -/
def clean_ocr_text (t : List Char) : List Char :=
  ((strip (collapseAux false t)).map (fun c => if c = '|' then 'I' else c)).map
    (fun c => if c = '0' then 'O' else c)

def pageBreakMarker : List Char := "=== PAGE BREAK ===".data

def pageSep : List Char := "\n\n=== PAGE BREAK ===\n\n".data

/-- Model of Python `sep.join(pages)`. -/
def joinSep (sep : List Char) : List (List Char) → List Char
  | [] => []
  | [x] => x
  | x :: y :: ys => x ++ sep ++ joinSep sep (y :: ys)

/-- The dict built per entry by `extract_bibliographic_entries`. -/
structure BibEntry where
  year_line : Option (List Char)
  title_line : Option (List Char)
  additional_info : Option (List Char)
deriving DecidableEq

def emptyBib : BibEntry := ⟨none, none, none⟩

/-- Scanner for `re.search(r'\d\x7b4\x7d', line)`: does the line contain a run
of four decimal digits? -/
def fourDigitsAux : Nat → List Char → Bool
  | cnt, [] => 4 ≤ cnt
  | cnt, c :: t =>
    if 4 ≤ cnt then true
    else if c.isDigit then fourDigitsAux (cnt + 1) t
    else fourDigitsAux 0 t

def hasFourDigits (s : List Char) : Bool := fourDigitsAux 0 s

/-- The CJK / kana character class used by `extract_bibliographic_entries`. -/
def isCJK (c : Char) : Bool :=
  (0x4e00 ≤ c.toNat && c.toNat ≤ 0x9fff) || (0x3040 ≤ c.toNat && c.toNat ≤ 0x309f) ||
    (0x30a0 ≤ c.toNat && c.toNat ≤ 0x30ff)

/-- The per-line update of the current entry in
`extract_bibliographic_entries`: record a year line when the line has four
consecutive digits, then fill `title_line` and `additional_info` (in that
order) when the line has CJK characters. -/
def extractUpd (e0 : BibEntry) (line : List Char) : BibEntry :=
  let e1 := if hasFourDigits line then { e0 with year_line := some line } else e0
  if line.any isCJK then
    match e1.title_line with
    | none => { e1 with title_line := some line }
    | some _ =>
      match e1.additional_info with
      | none => { e1 with additional_info := some line }
      | some _ => e1
  else e1

/-- One loop iteration of `extract_bibliographic_entries`: blank lines and
page-break marker lines flush the (nonempty) current entry. -/
def extractStep (st : BibEntry × List BibEntry) (rawLine : List Char) :
    BibEntry × List BibEntry :=
  if (strip rawLine).isEmpty || strip rawLine = pageBreakMarker then
    if st.1 = emptyBib then st else (emptyBib, st.2 ++ [st.1])
  else (extractUpd st.1 (strip rawLine), st.2)

/-- The end-of-input flush of `extract_bibliographic_entries`. -/
def extractFlush (st : BibEntry × List BibEntry) : List BibEntry :=
  if st.1 = emptyBib then st.2 else st.2 ++ [st.1]

/-- `extract_bibliographic_entries` from extract_pdf_data.py, returning the
entry list together with the cleaned text. -/
def extract_bibliographic_entries (pages : List (List Char)) :
    List BibEntry × List Char :=
  ((splitLines (clean_ocr_text (joinSep pageSep pages))).foldl extractStep
      (emptyBib, []) |> extractFlush,
   clean_ocr_text (joinSep pageSep pages))

/-! ## Similarity model of `difflib.SequenceMatcher(None, a, b).ratio()`

  With no junk heuristic (inputs far below the autojunk limit), difflib's
  `find_longest_match` returns the longest common contiguous block, preferring
  the smallest position in `a` and then in `b`; `ratio()` recursively sums the
  block sizes M and returns `2*M/T` where T is the total length (1.0 when
  T = 0). -/

/-- Length of the common run at the heads of two lists. -/
def runLen : List Char → List Char → Nat
  | a :: as, b :: bs => if a = b then runLen as bs + 1 else 0
  | _, _ => 0

def pairRow (i n : Nat) : List (Nat × Nat) := (List.range n).map (fun j => (i, j))

/-- All start positions (i, j), in the preference order of difflib. -/
def allPairs (m n : Nat) : List (Nat × Nat) :=
  ((List.range m).map (fun i => pairRow i n)).flatten

/-- Keep the strictly larger common run; ties keep the earlier candidate. -/
def bestStep (a b : List Char) (acc : Nat × Nat × Nat) (p : Nat × Nat) :
    Nat × Nat × Nat :=
  if acc.2.2 < runLen (a.drop p.1) (b.drop p.2) then
    (p.1, p.2, runLen (a.drop p.1) (b.drop p.2))
  else acc

/-- Model of `find_longest_match` over whole strings: (i, j, size). -/
def findBest (a b : List Char) : Nat × Nat × Nat :=
  (allPairs a.length b.length).foldl (bestStep a b) (0, 0, 0)

/-- Fuelled total matched-character count of `get_matching_blocks`. -/
def matchingMF : Nat → List Char → List Char → Nat
  | 0, _, _ => 0
  | f + 1, a, b =>
    let t := findBest a b
    if t.2.2 = 0 then 0
    else
      matchingMF f (a.take t.1) (b.take t.2.1) + t.2.2 +
        matchingMF f (a.drop (t.1 + t.2.2)) (b.drop (t.2.1 + t.2.2))

def matchingM (a b : List Char) : Nat := matchingMF (a.length + 1) a b

/-- `SequenceMatcher(None, a, b).ratio()` as an exact rational. -/
def similarity (a b : List Char) : ℚ :=
  if a.length + b.length = 0 then 1
  else mkRat (2 * (matchingM a b : Int)) (a.length + b.length)

/-! ## Fuzzy record linking

  Embeds `match_pdf_to_csv` and `enhance_records_with_pdf`
  (integrate_pdf_data.py).  The float threshold `0.3` is modelled as the
  rational 3/10 (the scores compared against it here are 0 or 1, so the tiny
  float-literal rounding of 0.3 is immaterial). -/

structure MatchRec where
  csv_index : Nat
  pdf_entry : PdfEntry
  confidence : ℚ
deriving DecidableEq

/-- One step of the inner best-match scan of `match_pdf_to_csv`: keep a
strictly better score, otherwise keep the current best. -/
def bestStepQ (t : List Char) (acc : Option PdfEntry × ℚ) (e : PdfEntry) :
    Option PdfEntry × ℚ :=
  if acc.2 < similarity t e.text then (some e, similarity t e.text) else acc

/-- The inner best-match scan of `match_pdf_to_csv`: start from
`best_match = None, best_score = 0` and keep strictly better scores. -/
def bestOf (t : List Char) (es : List PdfEntry) : Option PdfEntry × ℚ :=
  es.foldl (bestStepQ t) (none, 0)

/-- The record loop of `match_pdf_to_csv`; `idx` is the dataframe index of
the next record.  Records with an empty (stripped) title are skipped. -/
def matchAux (entries : List PdfEntry) : Nat → List (List Char) → List MatchRec
  | _, [] => []
  | idx, t :: rest =>
    if (strip t).isEmpty then matchAux entries (idx + 1) rest
    else
      match bestOf (strip t) entries with
      | (some e, bs) =>
        if mkRat 3 10 < bs then ⟨idx, e, bs⟩ :: matchAux entries (idx + 1) rest
        else matchAux entries (idx + 1) rest
      | (none, _) => matchAux entries (idx + 1) rest

/-- `match_pdf_to_csv` from integrate_pdf_data.py. -/
def match_pdf_to_csv (entries : List PdfEntry) (csv : List (List Char)) :
    List MatchRec :=
  matchAux entries 0 csv

/-- The three columns added by `enhance_records_with_pdf`. -/
structure Enhanced where
  pdf_confirmed : Bool
  pdf_confidence : ℚ
  pdf_catalog_entry : List Char
deriving DecidableEq

def defaultEnhanced : Enhanced := ⟨false, 0, []⟩

/-- The per-match column updates of `enhance_records_with_pdf`: every row
starts at the defaults, then each match overwrites its own row. -/
def pdfColumns (n : Nat) (ms : List MatchRec) : List Enhanced :=
  ms.foldl
    (fun cols m =>
      cols.set m.csv_index ⟨true, m.confidence, m.pdf_entry.raw_line.take 200⟩)
    (List.replicate n defaultEnhanced)

/-- `enhance_records_with_pdf` from integrate_pdf_data.py: the input rows,
each paired with its three new pdf columns.  The pre-existing row data is
untouched by construction, exactly as the pandas column writes only touch
the three new columns. -/
def enhance_records_with_pdf (csv : List (List Char)) (ms : List MatchRec) :
    List (List Char × Enhanced) :=
  csv.zip (pdfColumns csv.length ms)

/-! ## General lemmas about the string utilities -/

theorem natToDigitsF_congr (n : Nat) : ∀ f g, n < f → n < g →
    natToDigitsF f n = natToDigitsF g n := by
  induction n using Nat.strong_induction_on with
  | _ n ih =>
    intro f g hf hg
    obtain ⟨f', rfl⟩ : ∃ f', f = f' + 1 := ⟨f - 1, by omega⟩
    obtain ⟨g', rfl⟩ : ∃ g', g = g' + 1 := ⟨g - 1, by omega⟩
    by_cases h : n < 10
    · simp [natToDigitsF, h]
    · have hpos : 0 < n := by omega
      have hdiv : n / 10 < n := Nat.div_lt_self hpos (by norm_num)
      have hrec := ih (n / 10) hdiv f' g' (by omega) (by omega)
      simp [natToDigitsF, h, hrec]

theorem digitChar_spec (d : Nat) (h : d < 10) :
    (Char.ofNat (48 + d)).isDigit = true ∧ (Char.ofNat (48 + d)).toNat = 48 + d := by
  interval_cases d <;> exact ⟨by decide, by decide⟩

theorem digitsToNat_append_one (ds : List Char) (c : Char) :
    digitsToNat (ds ++ [c]) = 10 * digitsToNat ds + (c.toNat - 48) := by
  simp [digitsToNat, List.foldl_append]

theorem natToDigits_spec (n : Nat) :
    natToDigits n ≠ [] ∧ (∀ c ∈ natToDigits n, c.isDigit = true) ∧
      digitsToNat (natToDigits n) = n := by
  induction n using Nat.strong_induction_on with
  | _ n ih =>
    by_cases h : n < 10
    · have hd := digitChar_spec n h
      unfold natToDigits natToDigitsF
      simp only [h, if_true]
      refine ⟨by simp, ?_, ?_⟩
      · intro c hc
        simp only [List.mem_singleton] at hc
        subst hc
        exact hd.1
      · simp [digitsToNat, hd.2]
    · have hpos : 0 < n := by omega
      have hdiv : n / 10 < n := Nat.div_lt_self hpos (by norm_num)
      have hrec := ih (n / 10) hdiv
      have hmod : n % 10 < 10 := Nat.mod_lt n (by norm_num)
      have hd := digitChar_spec (n % 10) hmod
      have hunf : natToDigits n = natToDigits (n / 10) ++ [Char.ofNat (48 + n % 10)] := by
        show (if n < 10 then [Char.ofNat (48 + n)]
            else natToDigitsF n (n / 10) ++ [Char.ofNat (48 + n % 10)]) =
          natToDigits (n / 10) ++ [Char.ofNat (48 + n % 10)]
        rw [if_neg h, natToDigitsF_congr (n / 10) n (n / 10 + 1) (by omega) (by omega)]
        rfl
      rw [hunf]
      refine ⟨by simp, ?_, ?_⟩
      · intro c hc
        rcases List.mem_append.1 hc with hc | hc
        · exact hrec.2.1 c hc
        · simp only [List.mem_singleton] at hc
          subst hc
          exact hd.1
      · rw [digitsToNat_append_one, hrec.2.2, hd.2]
        omega

theorem isDigit_false_of_isSpaceChar (c : Char) (h : isSpaceChar c = true) :
    c.isDigit = false := by
  simp only [isSpaceChar, Bool.or_eq_true, decide_eq_true_eq] at h
  rcases h with ((((h | h) | h) | h) | h) | h <;> subst h <;> decide

theorem isSpaceChar_false_of_isDigit (c : Char) (h : c.isDigit = true) :
    isSpaceChar c = false := by
  by_cases hs : isSpaceChar c = true
  · rw [isDigit_false_of_isSpaceChar c hs] at h
    exact absurd h (by simp)
  · simpa using hs

theorem dropWhile_eq_self_of_all {p : Char → Bool} (s : List Char)
    (h : ∀ c ∈ s, p c = false) : s.dropWhile p = s := by
  cases s with
  | nil => rfl
  | cons a t => simp [List.dropWhile, h a (by simp)]

theorem strip_eq_self (s : List Char) (h : ∀ c ∈ s, isSpaceChar c = false) :
    strip s = s := by
  unfold strip
  rw [dropWhile_eq_self_of_all s h,
    dropWhile_eq_self_of_all s.reverse (fun c hc => h c (List.mem_reverse.1 hc)),
    List.reverse_reverse]

theorem takeWhile_append_all {p : Char → Bool} (l1 l2 : List Char)
    (h : ∀ c ∈ l1, p c = true) : (l1 ++ l2).takeWhile p = l1 ++ l2.takeWhile p := by
  induction l1 with
  | nil => simp
  | cons a t ih =>
    simp only [List.cons_append, List.takeWhile_cons, h a (by simp), if_true]
    rw [ih (fun c hc => h c (by simp [hc]))]

theorem dropWhile_append_all {p : Char → Bool} (l1 l2 : List Char)
    (h : ∀ c ∈ l1, p c = true) : (l1 ++ l2).dropWhile p = l2.dropWhile p := by
  induction l1 with
  | nil => simp
  | cons a t ih =>
    simp only [List.cons_append, List.dropWhile_cons, h a (by simp), if_true]
    exact ih (fun c hc => h c (by simp [hc]))

theorem startsWith_self_append (p r : List Char) : startsWith (p ++ r) p = true := by
  induction p with
  | nil => cases r <;> rfl
  | cons c t ih => simp [startsWith, ih]

theorem startsWith_mem (p : List Char) : ∀ s, startsWith s p = true → ∀ c ∈ p, c ∈ s := by
  induction p with
  | nil => intro s _ c hc; exact absurd hc (by simp)
  | cons q ps ih =>
    intro s hs c hc
    cases s with
    | nil => exact absurd hs (by simp [startsWith])
    | cons a as =>
      simp only [startsWith, Bool.and_eq_true, decide_eq_true_eq] at hs
      rcases List.mem_cons.1 hc with rfl | hc
      · simp [hs.1]
      · exact List.mem_cons.2 (Or.inr (ih as hs.2 c hc))

theorem pyIn_self_append (p r : List Char) : pyIn p (p ++ r) = true := by
  cases p with
  | nil => cases r <;> simp [pyIn, startsWith]
  | cons c t =>
    simp only [List.cons_append, pyIn, Bool.or_eq_true]
    exact Or.inl (by simpa [startsWith] using startsWith_self_append (c :: t) r |>.symm ▸
      (by simp [startsWith, startsWith_self_append]))

theorem pyIn_eq_false (pat s : List Char) (c : Char) (hc : c ∈ pat) (hs : c ∉ s) :
    pyIn pat s = false := by
  induction s with
  | nil =>
    cases pat with
    | nil => exact absurd hc (by simp)
    | cons d ps => rfl
  | cons a t ih =>
    have h1 : startsWith (a :: t) pat = false := by
      by_cases hsw : startsWith (a :: t) pat = true
      · exact absurd (startsWith_mem pat (a :: t) hsw c hc) hs
      · simpa using hsw
    have h2 : pyIn pat t = false := ih (fun hmem => hs (List.mem_cons.2 (Or.inr hmem)))
    simp [pyIn, h1, h2]

/-! ## Lemmas for the era converters -/

theorem findYearAux_skip (pre : List Char) (h : ∀ c ∈ pre, c.isDigit = false) :
    ∀ rest, findYearAux [] (pre ++ rest) = findYearAux [] rest := by
  induction pre with
  | nil => intro rest; rfl
  | cons c t ih =>
    intro rest
    have hc := h c (by simp)
    simp only [List.cons_append, findYearAux, hc]
    simpa using ih (fun d hd => h d (by simp [hd])) rest

theorem findYearAux_digits (ds : List Char) :
    ∀ run, (∀ c ∈ ds, c.isDigit = true) → run ++ ds ≠ [] → ∀ rest,
      findYearAux run (ds ++ '年' :: rest) = some (digitsToNat (run ++ ds)) := by
  induction ds with
  | nil =>
    intro run _ hne rest
    have hrun : run ≠ [] := by simpa using hne
    have hemp : run.isEmpty = false := by
      cases run with
      | nil => exact absurd rfl hrun
      | cons a t => rfl
    have hdig : ('年' : Char).isDigit = false := by decide
    simp [findYearAux, hdig, hemp]
  | cons d t ih =>
    intro run h hne rest
    have hd := h d (by simp)
    simp only [List.cons_append, findYearAux, hd, if_true]
    have := ih (run ++ [d]) (fun c hc => h c (by simp [hc])) (by simp) rest
    simpa [List.append_assoc] using this

theorem findYearNumber_input (era : List Char) (n : Nat)
    (h : ∀ c ∈ era, c.isDigit = false) :
    findYearNumber (era ++ (natToDigits n ++ ['年'])) = some n := by
  have hds := natToDigits_spec n
  unfold findYearNumber
  rw [findYearAux_skip era h (natToDigits n ++ ['年'])]
  have := findYearAux_digits (natToDigits n) [] hds.2.1 (by simpa using hds.1) []
  simpa [hds.2.2] using this

theorem not_mem_eraInput (c : Char) (tgt : List Char) (n : Nat)
    (h1 : c ∉ tgt) (h2 : c.isDigit = false) (h3 : c ≠ '年') :
    c ∉ tgt ++ (natToDigits n ++ ['年']) := by
  intro hmem
  rcases List.mem_append.1 hmem with hm | hm
  · exact h1 hm
  · rcases List.mem_append.1 hm with hm | hm
    · have := (natToDigits_spec n).2.1 c hm
      rw [h2] at this
      exact absurd this (by simp)
    · simp only [List.mem_singleton] at hm
      exact h3 hm

theorem no_space_eraInput (tgt : List Char) (n : Nat)
    (h : ∀ c ∈ tgt, isSpaceChar c = false) :
    ∀ c ∈ tgt ++ (natToDigits n ++ ['年']), isSpaceChar c = false := by
  intro c hmem
  rcases List.mem_append.1 hmem with hm | hm
  · exact h c hm
  · rcases List.mem_append.1 hm with hm | hm
    · exact isSpaceChar_false_of_isDigit c ((natToDigits_spec n).2.1 c hm)
    · simp only [List.mem_singleton] at hm
      subst hm
      decide

theorem eraLoopUltra_skip (era : List Char) (base : Int) (rest : List (List Char × Int))
    (s : List Char) (h : pyIn era s = false) :
    eraLoopUltra ((era, base) :: rest) s = eraLoopUltra rest s := by
  simp [eraLoopUltra, h]

theorem eraLoopUltra_hit (era : List Char) (base : Int) (rest : List (List Char × Int))
    (s : List Char) (h : pyIn era s = true) (n : Nat) (hy : findYearNumber s = some n) :
    eraLoopUltra ((era, base) :: rest) s = some (base + (n : Int) - 1) := by
  simp [eraLoopUltra, h, hy]

theorem eraLoopUltra_skip_char (era : List Char) (base : Int)
    (rest : List (List Char × Int)) (tgt : List Char) (n : Nat) (c : Char)
    (hc : c ∈ era) (h1 : c ∉ tgt) (h2 : c.isDigit = false) (h3 : c ≠ '年') :
    eraLoopUltra ((era, base) :: rest) (tgt ++ (natToDigits n ++ ['年'])) =
      eraLoopUltra rest (tgt ++ (natToDigits n ++ ['年'])) :=
  eraLoopUltra_skip _ _ _ _
    (pyIn_eq_false era _ c hc (not_mem_eraInput c tgt n h1 h2 h3))

theorem matchEraDigitsAt_input (era : List Char) (n : Nat) :
    matchEraDigitsAt era (era ++ (natToDigits n ++ ['年'])) = some n := by
  have hds := natToDigits_spec n
  have hdrop : (era ++ (natToDigits n ++ ['年'])).drop era.length =
      natToDigits n ++ ['年'] := List.drop_left era _
  have h1 : (natToDigits n ++ ['年']).dropWhile Char.isDigit = ['年'] := by
    rw [dropWhile_append_all _ _ hds.2.1]
    decide
  have h2 : (natToDigits n ++ ['年']).takeWhile Char.isDigit = natToDigits n := by
    rw [takeWhile_append_all _ _ hds.2.1,
      show List.takeWhile Char.isDigit ['年'] = [] from by decide, List.append_nil]
  have h3 : (natToDigits n).isEmpty = false := by
    cases hdd : natToDigits n with
    | nil => exact absurd hdd hds.1
    | cons a t => rfl
  unfold matchEraDigitsAt
  rw [startsWith_self_append era _, hdrop, h1, h2, h3]
  simp [hds.2.2]

theorem matchEraDigits_of_at (era s : List Char) (n : Nat)
    (h : matchEraDigitsAt era s = some n) : matchEraDigits era s = some n := by
  cases s with
  | nil => simpa [matchEraDigits] using h
  | cons a t => simp [matchEraDigits, h]

theorem matchEraDigits_none (era : List Char) (c : Char) (hc : c ∈ era) :
    ∀ s, c ∉ s → matchEraDigits era s = none := by
  intro s
  induction s with
  | nil =>
    intro _
    cases era with
    | nil => exact absurd hc (by simp)
    | cons e es => simp [matchEraDigits, matchEraDigitsAt, startsWith]
  | cons a t ih =>
    intro hs
    have h1 : startsWith (a :: t) era = false := by
      by_cases hsw : startsWith (a :: t) era = true
      · exact absurd (startsWith_mem era (a :: t) hsw c hc) hs
      · simpa using hsw
    have h2 := ih (fun hm => hs (List.mem_cons.2 (Or.inr hm)))
    simp [matchEraDigits, matchEraDigitsAt, h1, h2]

theorem eraLoopAdv_skip (era : List Char) (base : Int) (rest : List (List Char × Int))
    (s : List Char) (h : matchEraDigits era s = none) :
    eraLoopAdv ((era, base) :: rest) s = eraLoopAdv rest s := by
  simp [eraLoopAdv, h]

theorem eraLoopAdv_hit (era : List Char) (base : Int) (rest : List (List Char × Int))
    (s : List Char) (n : Nat) (h : matchEraDigits era s = some n) :
    eraLoopAdv ((era, base) :: rest) s = some (base + (n : Int) - 1) := by
  simp [eraLoopAdv, h]

theorem eraLoopAdv_skip_char (era : List Char) (base : Int)
    (rest : List (List Char × Int)) (tgt : List Char) (n : Nat) (c : Char)
    (hc : c ∈ era) (h1 : c ∉ tgt) (h2 : c.isDigit = false) (h3 : c ≠ '年') :
    eraLoopAdv ((era, base) :: rest) (tgt ++ (natToDigits n ++ ['年'])) =
      eraLoopAdv rest (tgt ++ (natToDigits n ++ ['年'])) :=
  eraLoopAdv_skip _ _ _ _
    (matchEraDigits_none era c hc _ (not_mem_eraInput c tgt n h1 h2 h3))

theorem eraInput_ne_qmark (tgt : List Char) (n : Nat) (hne : tgt ≠ []) :
    tgt ++ (natToDigits n ++ ['年']) ≠ "？".data := by
  intro h
  have hlen := congrArg List.length h
  have h1 : ("？".data).length = 1 := by decide
  have h2 : 0 < (natToDigits n).length := List.length_pos.2 (natToDigits_spec n).1
  have h3 : 0 < tgt.length := List.length_pos.2 hne
  simp only [List.length_append, List.length_singleton, h1] at hlen
  omega

theorem parse_chinese_era_input (tgt : List Char) (n : Nat)
    (hsp : ∀ c ∈ tgt, isSpaceChar c = false) (hne : tgt ≠ []) :
    parse_chinese_era (tgt ++ (natToDigits n ++ ['年'])) =
      (match matchEraDigits ("民國".data) (tgt ++ (natToDigits n ++ ['年'])) with
        | some m => some (1911 + (m : Int))
        | none => eraLoopAdv eraListAdv (tgt ++ (natToDigits n ++ ['年']))) := by
  have hstrip := strip_eq_self _ (no_space_eraInput tgt n hsp)
  have hq := eraInput_ne_qmark tgt n hne
  have hie : (tgt ++ (natToDigits n ++ ['年'])).isEmpty = false := by
    cases tgt with
    | nil => exact absurd rfl hne
    | cons a t => rfl
  unfold parse_chinese_era
  rw [hie, hstrip]
  simp [hq]

theorem matchEraWsAt_input (era : List Char) (n : Nat) :
    matchEraWsAt era (era ++ (natToDigits n ++ ['年'])) = some n := by
  have hds := natToDigits_spec n
  have hdrop : (era ++ (natToDigits n ++ ['年'])).drop era.length =
      natToDigits n ++ ['年'] := List.drop_left era _
  have hnosp : ∀ c ∈ natToDigits n ++ ['年'], isSpaceChar c = false := by
    intro c hc
    rcases List.mem_append.1 hc with hm | hm
    · exact isSpaceChar_false_of_isDigit c (hds.2.1 c hm)
    · simp only [List.mem_singleton] at hm
      subst hm
      decide
  have h0 : (natToDigits n ++ ['年']).dropWhile isSpaceChar =
      natToDigits n ++ ['年'] := dropWhile_eq_self_of_all _ hnosp
  have h2 : (natToDigits n ++ ['年']).takeWhile Char.isDigit = natToDigits n := by
    rw [takeWhile_append_all _ _ hds.2.1,
      show List.takeWhile Char.isDigit ['年'] = [] from by decide, List.append_nil]
  have h3 : (natToDigits n).isEmpty = false := by
    cases hdd : natToDigits n with
    | nil => exact absurd hdd hds.1
    | cons a t => rfl
  unfold matchEraWsAt
  rw [startsWith_self_append era _, hdrop, h0, h2]
  simp [hds.2.2, h3]

theorem matchEraWs_of_at (era s : List Char) (n : Nat)
    (h : matchEraWsAt era s = some n) : matchEraWs era s = some n := by
  cases s with
  | nil => simpa [matchEraWs] using h
  | cons a t => simp [matchEraWs, h]

theorem matchEraWs_none (era : List Char) (c : Char) (hc : c ∈ era) :
    ∀ s, c ∉ s → matchEraWs era s = none := by
  intro s
  induction s with
  | nil =>
    intro _
    cases era with
    | nil => exact absurd hc (by simp)
    | cons e es => simp [matchEraWs, matchEraWsAt, startsWith]
  | cons a t ih =>
    intro hs
    have h1 : startsWith (a :: t) era = false := by
      by_cases hsw : startsWith (a :: t) era = true
      · exact absurd (startsWith_mem era (a :: t) hsw c hc) hs
      · simpa using hsw
    have h2 := ih (fun hm => hs (List.mem_cons.2 (Or.inr hm)))
    simp [matchEraWs, matchEraWsAt, h1, h2]

/-- Claim C1: for every era name in each static era table and every positive
integer offset, the era-to-year converters map the string "{era}{offset}年"
to the Gregorian year base_year(era) + offset - 1; in particular 光緒25年
yields 1899 and 民國8年 yields 1919 (for the 民國 entries the source computes
1911 + offset, which equals 1912 + offset - 1). -/
theorem claim_C1 :
    (∀ era : List Char, ∀ base : Int, (era, base) ∈ eraListUltra → ∀ n : Nat, 0 < n →
        parse_chinese_year (era ++ (natToDigits n ++ ['年'])) =
          some (base + (n : Int) - 1)) ∧
    (∀ era : List Char, ∀ base : Int,
        (era, base) ∈ ("民國".data, (1912 : Int)) :: eraListAdv → ∀ n : Nat, 0 < n →
        parse_chinese_era (era ++ (natToDigits n ++ ['年'])) =
          some (base + (n : Int) - 1)) ∧
    (∀ era : List Char, ∀ base : Int,
        (era, base) ∈ [("民國".data, (1912 : Int)), ("光緒".data, (1875 : Int))] →
        ∀ n : Nat, 0 < n →
        parse_year none (era ++ (natToDigits n ++ ['年'])) =
          some (base + (n : Int) - 1)) ∧
    parse_chinese_year ("光緒25年".data) = some 1899 ∧
    parse_chinese_year ("民國8年".data) = some 1919 ∧
    parse_chinese_era ("光緒25年".data) = some 1899 ∧
    parse_chinese_era ("民國8年".data) = some 1919 := by
  refine ⟨?_, ?_, ?_, by decide, by decide, by decide, by decide⟩
  · intro era base hp n hn
    simp only [eraListUltra, List.mem_cons, List.not_mem_nil, or_false,
      Prod.mk.injEq] at hp
    rcases hp with ⟨rfl, rfl⟩ | ⟨rfl, rfl⟩ | ⟨rfl, rfl⟩ | ⟨rfl, rfl⟩ | ⟨rfl, rfl⟩ |
      ⟨rfl, rfl⟩ | ⟨rfl, rfl⟩
    · unfold parse_chinese_year
      simp only [eraListUltra]
      rw [eraLoopUltra_hit _ _ _ _ (pyIn_self_append _ _) n
        (findYearNumber_input _ n (by decide))]
    · unfold parse_chinese_year
      simp only [eraListUltra]
      rw [eraLoopUltra_skip_char _ _ _ _ n '光' (by decide) (by decide) (by decide)
          (by decide),
        eraLoopUltra_hit _ _ _ _ (pyIn_self_append _ _) n
          (findYearNumber_input _ n (by decide))]
    · unfold parse_chinese_year
      simp only [eraListUltra]
      rw [eraLoopUltra_skip_char _ _ _ _ n '光' (by decide) (by decide) (by decide)
          (by decide),
        eraLoopUltra_skip_char _ _ _ _ n '宣' (by decide) (by decide) (by decide)
          (by decide),
        eraLoopUltra_hit _ _ _ _ (pyIn_self_append _ _) n
          (findYearNumber_input _ n (by decide))]
    · unfold parse_chinese_year
      simp only [eraListUltra]
      rw [eraLoopUltra_skip_char _ _ _ _ n '光' (by decide) (by decide) (by decide)
          (by decide),
        eraLoopUltra_skip_char _ _ _ _ n '宣' (by decide) (by decide) (by decide)
          (by decide),
        eraLoopUltra_skip_char _ _ _ _ n '民' (by decide) (by decide) (by decide)
          (by decide),
        eraLoopUltra_hit _ _ _ _ (pyIn_self_append _ _) n
          (findYearNumber_input _ n (by decide))]
    · unfold parse_chinese_year
      simp only [eraListUltra]
      rw [eraLoopUltra_skip_char _ _ _ _ n '光' (by decide) (by decide) (by decide)
          (by decide),
        eraLoopUltra_skip_char _ _ _ _ n '宣' (by decide) (by decide) (by decide)
          (by decide),
        eraLoopUltra_skip_char _ _ _ _ n '民' (by decide) (by decide) (by decide)
          (by decide),
        eraLoopUltra_skip_char _ _ _ _ n '同' (by decide) (by decide) (by decide)
          (by decide),
        eraLoopUltra_hit _ _ _ _ (pyIn_self_append _ _) n
          (findYearNumber_input _ n (by decide))]
    · unfold parse_chinese_year
      simp only [eraListUltra]
      rw [eraLoopUltra_skip_char _ _ _ _ n '緒' (by decide) (by decide) (by decide)
          (by decide),
        eraLoopUltra_skip_char _ _ _ _ n '宣' (by decide) (by decide) (by decide)
          (by decide),
        eraLoopUltra_skip_char _ _ _ _ n '民' (by decide) (by decide) (by decide)
          (by decide),
        eraLoopUltra_skip_char _ _ _ _ n '同' (by decide) (by decide) (by decide)
          (by decide),
        eraLoopUltra_skip_char _ _ _ _ n '嘉' (by decide) (by decide) (by decide)
          (by decide),
        eraLoopUltra_hit _ _ _ _ (pyIn_self_append _ _) n
          (findYearNumber_input _ n (by decide))]
    · unfold parse_chinese_year
      simp only [eraListUltra]
      rw [eraLoopUltra_skip_char _ _ _ _ n '光' (by decide) (by decide) (by decide)
          (by decide),
        eraLoopUltra_skip_char _ _ _ _ n '宣' (by decide) (by decide) (by decide)
          (by decide),
        eraLoopUltra_skip_char _ _ _ _ n '民' (by decide) (by decide) (by decide)
          (by decide),
        eraLoopUltra_skip_char _ _ _ _ n '同' (by decide) (by decide) (by decide)
          (by decide),
        eraLoopUltra_skip_char _ _ _ _ n '嘉' (by decide) (by decide) (by decide)
          (by decide),
        eraLoopUltra_skip_char _ _ _ _ n '道' (by decide) (by decide) (by decide)
          (by decide),
        eraLoopUltra_hit _ _ _ _ (pyIn_self_append _ _) n
          (findYearNumber_input _ n (by decide))]
  · intro era base hp n hn
    simp only [eraListAdv, List.mem_cons, List.not_mem_nil, or_false,
      Prod.mk.injEq] at hp
    rcases hp with ⟨rfl, rfl⟩ | ⟨rfl, rfl⟩ | ⟨rfl, rfl⟩ | ⟨rfl, rfl⟩ | ⟨rfl, rfl⟩ |
      ⟨rfl, rfl⟩ | ⟨rfl, rfl⟩
    · rw [parse_chinese_era_input _ n (by decide) (by decide),
        matchEraDigits_of_at _ _ n (matchEraDigitsAt_input _ n)]
      simp only [Option.some.injEq]
      omega
    · rw [parse_chinese_era_input _ n (by decide) (by decide),
        matchEraDigits_none ("民國".data) '民' (by decide) _
          (not_mem_eraInput '民' _ n (by decide) (by decide) (by decide))]
      simp only [eraListAdv]
      rw [eraLoopAdv_hit _ _ _ _ n
        (matchEraDigits_of_at _ _ n (matchEraDigitsAt_input _ n))]
    · rw [parse_chinese_era_input _ n (by decide) (by decide),
        matchEraDigits_none ("民國".data) '民' (by decide) _
          (not_mem_eraInput '民' _ n (by decide) (by decide) (by decide))]
      simp only [eraListAdv]
      rw [eraLoopAdv_skip_char _ _ _ _ n '光' (by decide) (by decide) (by decide)
          (by decide),
        eraLoopAdv_hit _ _ _ _ n
          (matchEraDigits_of_at _ _ n (matchEraDigitsAt_input _ n))]
    · rw [parse_chinese_era_input _ n (by decide) (by decide),
        matchEraDigits_none ("民國".data) '民' (by decide) _
          (not_mem_eraInput '民' _ n (by decide) (by decide) (by decide))]
      simp only [eraListAdv]
      rw [eraLoopAdv_skip_char _ _ _ _ n '光' (by decide) (by decide) (by decide)
          (by decide),
        eraLoopAdv_skip_char _ _ _ _ n '宣' (by decide) (by decide) (by decide)
          (by decide),
        eraLoopAdv_hit _ _ _ _ n
          (matchEraDigits_of_at _ _ n (matchEraDigitsAt_input _ n))]
    · rw [parse_chinese_era_input _ n (by decide) (by decide),
        matchEraDigits_none ("民國".data) '民' (by decide) _
          (not_mem_eraInput '民' _ n (by decide) (by decide) (by decide))]
      simp only [eraListAdv]
      rw [eraLoopAdv_skip_char _ _ _ _ n '光' (by decide) (by decide) (by decide)
          (by decide),
        eraLoopAdv_skip_char _ _ _ _ n '宣' (by decide) (by decide) (by decide)
          (by decide),
        eraLoopAdv_skip_char _ _ _ _ n '咸' (by decide) (by decide) (by decide)
          (by decide),
        eraLoopAdv_hit _ _ _ _ n
          (matchEraDigits_of_at _ _ n (matchEraDigitsAt_input _ n))]
    · rw [parse_chinese_era_input _ n (by decide) (by decide),
        matchEraDigits_none ("民國".data) '民' (by decide) _
          (not_mem_eraInput '民' _ n (by decide) (by decide) (by decide))]
      simp only [eraListAdv]
      rw [eraLoopAdv_skip_char _ _ _ _ n '緒' (by decide) (by decide) (by decide)
          (by decide),
        eraLoopAdv_skip_char _ _ _ _ n '宣' (by decide) (by decide) (by decide)
          (by decide),
        eraLoopAdv_skip_char _ _ _ _ n '咸' (by decide) (by decide) (by decide)
          (by decide),
        eraLoopAdv_skip_char _ _ _ _ n '同' (by decide) (by decide) (by decide)
          (by decide),
        eraLoopAdv_hit _ _ _ _ n
          (matchEraDigits_of_at _ _ n (matchEraDigitsAt_input _ n))]
    · rw [parse_chinese_era_input _ n (by decide) (by decide),
        matchEraDigits_none ("民國".data) '民' (by decide) _
          (not_mem_eraInput '民' _ n (by decide) (by decide) (by decide))]
      simp only [eraListAdv]
      rw [eraLoopAdv_skip_char _ _ _ _ n '光' (by decide) (by decide) (by decide)
          (by decide),
        eraLoopAdv_skip_char _ _ _ _ n '宣' (by decide) (by decide) (by decide)
          (by decide),
        eraLoopAdv_skip_char _ _ _ _ n '咸' (by decide) (by decide) (by decide)
          (by decide),
        eraLoopAdv_skip_char _ _ _ _ n '同' (by decide) (by decide) (by decide)
          (by decide),
        eraLoopAdv_skip_char _ _ _ _ n '道' (by decide) (by decide) (by decide)
          (by decide),
        eraLoopAdv_hit _ _ _ _ n
          (matchEraDigits_of_at _ _ n (matchEraDigitsAt_input _ n))]
  · intro era base hp n hn
    simp only [List.mem_cons, List.not_mem_nil, or_false, Prod.mk.injEq] at hp
    rcases hp with ⟨rfl, rfl⟩ | ⟨rfl, rfl⟩
    · unfold parse_year
      rw [strip_eq_self _ (no_space_eraInput _ n (by decide)),
        matchEraWs_of_at _ _ n (matchEraWsAt_input _ n)]
      simp only [Option.some.injEq]
      omega
    · unfold parse_year
      rw [strip_eq_self _ (no_space_eraInput _ n (by decide)),
        matchEraWs_none ("民國".data) '民' (by decide) _
          (not_mem_eraInput '民' _ n (by decide) (by decide) (by decide)),
        matchEraWs_of_at _ _ n (matchEraWsAt_input _ n)]
      simp only [Option.some.injEq]
      omega

/-- Witness for claim C1: the quantified parts applied at 光緒/offset 25 and
民國/offset 8. -/
theorem claim_C1_witness :
    parse_chinese_year ("光緒".data ++ (natToDigits 25 ++ ['年'])) =
      some (1875 + (25 : Int) - 1) ∧
    parse_chinese_era ("民國".data ++ (natToDigits 8 ++ ['年'])) =
      some (1912 + (8 : Int) - 1) ∧
    parse_year none ("光緒".data ++ (natToDigits 25 ++ ['年'])) =
      some (1875 + (25 : Int) - 1) :=
  ⟨claim_C1.1 ("光緒".data) 1875 (by decide) 25 (by decide),
   claim_C1.2.1 ("民國".data) 1912 (by decide) 8 (by decide),
   claim_C1.2.2.1 ("光緒".data) 1875 (by decide) 25 (by decide)⟩

/-- Counterexample for claim C2: the title 教報 contains the periodical
keyword 報 and the theology keyword 教, yet `categorize_book` of
generate_atlas_advanced.py returns theology — periodical markers do NOT take
priority there (theology is tested first). -/
theorem claim_C2_counterexample :
    ("報".data ∈ periodicalKeysAdv ∧ pyIn ("報".data) ("教報".data) = true) ∧
    ("教".data ∈ theologyKeysAdv ∧ pyIn ("教".data) ("教報".data) = true) ∧
    categorize_book_advanced ("教報".data) = "theology" ∧
    categorize_book_advanced ("教報".data) ≠ "Periodical" ∧
    categorize_book_advanced ("教報".data) ≠ "periodical" :=
  ⟨⟨by decide, by decide⟩, ⟨by decide, by decide⟩, by decide, by decide, by decide⟩

/-- Claim C2 (amended): in generate_atlas_ultra.py the periodical keyword set
is tested first, so a title containing both a periodical and a theology
keyword categorizes as Periodical; in generate_atlas_advanced.py the theology
keyword set is tested first, so any title containing a theology keyword
categorizes as theology even when a periodical keyword is also present. -/
theorem claim_C2_amended :
    (∀ title publisher : List Char,
        (∃ kw ∈ periodicalKeysUltra, pyIn kw (lowerList title) = true) →
        (∃ kw ∈ theologyKeysUltra, pyIn kw (lowerList title) = true) →
        categorize_book_ultra title publisher = "Periodical") ∧
    (∀ title : List Char,
        (∃ kw ∈ theologyKeysAdv, pyIn kw (lowerList title) = true) →
        categorize_book_advanced title = "theology") := by
  constructor
  · intro title publisher hper _
    have hany : periodicalKeysUltra.any (fun kw => pyIn kw (lowerList title)) = true := by
      rcases hper with ⟨kw, hmem, hin⟩
      exact List.any_eq_true.2 ⟨kw, hmem, hin⟩
    unfold categorize_book_ultra
    simp [hany]
  · intro title hth
    have hany : theologyKeysAdv.any (fun kw => pyIn kw (lowerList title)) = true := by
      rcases hth with ⟨kw, hmem, hin⟩
      exact List.any_eq_true.2 ⟨kw, hmem, hin⟩
    unfold categorize_book_advanced
    simp [hany]

/-- Witness for claim C2 (amended): 月刊天方 contains the periodical keyword
月刊 and the theology keyword 天方. -/
theorem claim_C2_witness :
    categorize_book_ultra ("月刊天方".data) [] = "Periodical" ∧
    categorize_book_advanced ("月刊天方".data) = "theology" :=
  ⟨claim_C2_amended.1 ("月刊天方".data) []
      ⟨"月刊".data, by decide, by decide⟩ ⟨"天方".data, by decide, by decide⟩,
   claim_C2_amended.2 ("月刊天方".data) ⟨"天方".data, by decide, by decide⟩⟩

/-! ## Lemmas for the fuzzy record linker -/

theorem matchAux_index_lb (entries : List PdfEntry) :
    ∀ csv idx, ∀ m ∈ matchAux entries idx csv, idx ≤ m.csv_index := by
  intro csv
  induction csv with
  | nil =>
    intro idx m hm
    simp [matchAux] at hm
  | cons t rest ih =>
    intro idx m hm
    unfold matchAux at hm
    split at hm
    · have := ih (idx + 1) m hm
      omega
    · split at hm
      next e bs =>
        split at hm
        · rcases List.mem_cons.1 hm with rfl | hm
          · exact Nat.le_refl _
          · have := ih (idx + 1) m hm
            omega
        · have := ih (idx + 1) m hm
          omega
      next =>
        have := ih (idx + 1) m hm
        omega

theorem matchAux_pairwise (entries : List PdfEntry) :
    ∀ csv idx,
      (matchAux entries idx csv).Pairwise (fun a b => a.csv_index < b.csv_index) := by
  intro csv
  induction csv with
  | nil => intro idx; simp [matchAux]
  | cons t rest ih =>
    intro idx
    unfold matchAux
    split
    · exact ih (idx + 1)
    · split
      next e bs =>
        split
        · refine List.Pairwise.cons ?_ (ih (idx + 1))
          intro m hm
          have := matchAux_index_lb entries rest (idx + 1) m hm
          show idx < m.csv_index
          omega
        · exact ih (idx + 1)
      next => exact ih (idx + 1)

/-- Counterexample for claim C3: with a single catalog entry and two records
with the same title, the single entry is claimed by BOTH records — a catalog
entry is not claimed by at most one record. -/
theorem claim_C3_counterexample :
    (match_pdf_to_csv [⟨"ab".data, "691".data, "ab".data⟩]
        ["ab".data, "ab".data]).map (fun m => (m.csv_index, m.pdf_entry)) =
      [((0 : Nat), (⟨"ab".data, "691".data, "ab".data⟩ : PdfEntry)),
       ((1 : Nat), (⟨"ab".data, "691".data, "ab".data⟩ : PdfEntry))] := by
  decide

/-- Claim C3 (amended): in one run of `match_pdf_to_csv`, every record index
appears in at most one Match (the produced indices are pairwise distinct);
a catalog entry, however, may be claimed by several records. -/
theorem claim_C3_amended (entries : List PdfEntry) (csv : List (List Char)) :
    (match_pdf_to_csv entries csv).Pairwise
      (fun a b => a.csv_index ≠ b.csv_index) :=
  (matchAux_pairwise entries csv 0).imp (fun h => Nat.ne_of_lt h)

/-! ## Lemmas for the OCR entry segmenters -/

theorem foldl_preserve {α β : Type} (P : α → Prop) (step : α → β → α)
    (h : ∀ st x, P st → P (step st x)) :
    ∀ (l : List β) (st : α), P st → P (l.foldl step st) := by
  intro l
  induction l with
  | nil => intro st hst; exact hst
  | cons x t ih => intro st hst; exact ih (step st x) (h st x hst)

theorem catStep_blank (st : Option PdfEntry × List PdfEntry) (line : List Char)
    (h : strip line = []) : catStep st line = st := by
  unfold catStep
  rw [h]
  rfl

theorem extractStep_blank (st : BibEntry × List BibEntry) (line : List Char)
    (h : strip line = []) :
    extractStep st line =
      (if st.1 = emptyBib then st else (emptyBib, st.2 ++ [st.1])) := by
  unfold extractStep
  rw [h]
  rfl

theorem catStep_inv (st : Option PdfEntry × List PdfEntry) (line : List Char)
    (h1 : ∀ e ∈ st.2, e.text ≠ []) (h2 : ∀ e, st.1 = some e → e.text ≠ []) :
    (∀ e ∈ (catStep st line).2, e.text ≠ []) ∧
      ∀ e, (catStep st line).1 = some e → e.text ≠ [] := by
  by_cases hb : (strip line).isEmpty = true
  · have hnil : strip line = [] := by
      cases hsl : strip line with
      | nil => rfl
      | cons a t => rw [hsl] at hb; exact absurd hb (by simp)
    rw [catStep_blank st line hnil]
    exact ⟨h1, h2⟩
  · have hb2 : (strip line).isEmpty = false := by simpa using hb
    have hline : strip line ≠ [] := by
      intro hh
      rw [hh] at hb2
      exact absurd hb2 (by simp)
    cases hs : searchYear (strip line) with
    | some code =>
      cases hc : st.1 with
      | some e =>
        have heq : catStep st line =
            (some ⟨strip line, code, strip line⟩, st.2 ++ [e]) := by
          unfold catStep
          rw [hb2, hs, hc]
          rfl
        rw [heq]
        refine ⟨?_, ?_⟩
        · intro e' he'
          rcases List.mem_append.1 he' with hm | hm
          · exact h1 e' hm
          · simp only [List.mem_singleton] at hm
            rw [hm]
            exact h2 e hc
        · intro e' he'
          simp only [Option.some.injEq] at he'
          subst he'
          exact hline
      | none =>
        have heq : catStep st line =
            (some ⟨strip line, code, strip line⟩, st.2) := by
          unfold catStep
          rw [hb2, hs, hc]
          rfl
        rw [heq]
        refine ⟨h1, ?_⟩
        intro e' he'
        simp only [Option.some.injEq] at he'
        subst he'
        exact hline
    | none =>
      cases hc : st.1 with
      | some e =>
        have heq : catStep st line =
            (some ⟨e.raw_line, e.year_code, e.text ++ ' ' :: strip line⟩, st.2) := by
          unfold catStep
          rw [hb2, hs, hc]
          rfl
        rw [heq]
        refine ⟨h1, ?_⟩
        intro e' he'
        simp only [Option.some.injEq] at he'
        subst he'
        simp
      | none =>
        have heq : catStep st line = st := by
          unfold catStep
          rw [hb2, hs, hc]
          rfl
        rw [heq]
        exact ⟨h1, h2⟩

theorem parse_catalog_entries_nonempty (t : List Char) :
    ∀ e ∈ parse_catalog_entries t, e.text ≠ [] := by
  have main := foldl_preserve
    (fun st : Option PdfEntry × List PdfEntry =>
      (∀ e ∈ st.2, e.text ≠ []) ∧ ∀ e, st.1 = some e → e.text ≠ [])
    catStep (fun st x hst => catStep_inv st x hst.1 hst.2) (splitLines t)
    (none, []) ⟨by simp, by simp⟩
  unfold parse_catalog_entries
  split
  next e out heq =>
    intro e' he'
    rw [heq] at main
    rcases List.mem_append.1 he' with hm | hm
    · exact main.1 e' hm
    · simp only [List.mem_singleton] at hm
      subst hm
      exact main.2 e' rfl
  next out heq =>
    intro e' he'
    rw [heq] at main
    exact main.1 e' he'

theorem extractStep_inv (st : BibEntry × List BibEntry) (line : List Char)
    (h1 : ∀ e ∈ st.2, e ≠ emptyBib) :
    ∀ e ∈ (extractStep st line).2, e ≠ emptyBib := by
  unfold extractStep
  split
  · split
    · exact h1
    next hne =>
      intro e he
      rcases List.mem_append.1 he with hm | hm
      · exact h1 e hm
      · simp only [List.mem_singleton] at hm
        subst hm
        exact hne
  · exact h1

theorem extract_entries_nonempty (pages : List (List Char)) :
    ∀ e ∈ (extract_bibliographic_entries pages).1, e ≠ emptyBib := by
  have main := foldl_preserve
    (fun st : BibEntry × List BibEntry => ∀ e ∈ st.2, e ≠ emptyBib)
    extractStep (fun st x hst => extractStep_inv st x hst)
    (splitLines (clean_ocr_text (joinSep pageSep pages))) (emptyBib, []) (by simp)
  intro e he
  have he' : e ∈ extractFlush
      ((splitLines (clean_ocr_text (joinSep pageSep pages))).foldl extractStep
        (emptyBib, [])) := he
  unfold extractFlush at he'
  split at he'
  · exact main e he'
  next hne =>
    rcases List.mem_append.1 he' with hm | hm
    · exact main e hm
    · simp only [List.mem_singleton] at hm
      subst hm
      exact hne

/-- Counterexample for claim C4: `parse_catalog_entries` does NOT flush the
current entry at a blank line — the blank line is skipped and the following
line "y" is appended to the same entry, so the single output entry contains
text from both sides of the blank line. -/
theorem claim_C4_counterexample :
    (parse_catalog_entries ("691 x\n\ny".data)).map (fun e => e.text) =
      ["691 x y".data] := by decide

/-- Claim C4 (amended): in `extract_bibliographic_entries` a blank (or
page-break) line flushes the nonempty current entry without starting a new
one; in `parse_catalog_entries` a blank line is skipped and accumulation
continues across it.  In both, the final accumulated entry is flushed at end
of input and entries with no accumulated content never appear in the
output. -/
theorem claim_C4_amended :
    (∀ (st : BibEntry × List BibEntry) (line : List Char), strip line = [] →
        extractStep st line =
          (if st.1 = emptyBib then st else (emptyBib, st.2 ++ [st.1]))) ∧
    (∀ (st : Option PdfEntry × List PdfEntry) (line : List Char), strip line = [] →
        catStep st line = st) ∧
    (∀ pages, ∀ e ∈ (extract_bibliographic_entries pages).1, e ≠ emptyBib) ∧
    (∀ t, ∀ e ∈ parse_catalog_entries t, e.text ≠ []) :=
  ⟨extractStep_blank, catStep_blank, extract_entries_nonempty,
   parse_catalog_entries_nonempty⟩

/-- Witness for claim C4 (amended): a blank line flushes the pending entry in
the extractor, is skipped by the catalog parser, and concrete runs of both
segmenters contain only nonempty entries. -/
theorem claim_C4_witness :
    extractStep (⟨some ("1987 書".data), none, none⟩, []) [] =
      (emptyBib, [⟨some ("1987 書".data), none, none⟩]) ∧
    catStep (some ⟨"691".data, "691".data, "691".data⟩, []) ("\t".data) =
      (some ⟨"691".data, "691".data, "691".data⟩, []) ∧
    (⟨some ("1987 書".data), some ("1987 書".data), none⟩ : BibEntry) ≠ emptyBib ∧
    (⟨"691".data, "691".data, "691".data⟩ : PdfEntry).text ≠ [] := by
  refine ⟨?_, ?_, ?_, ?_⟩
  · have h := claim_C4_amended.1 (⟨some ("1987 書".data), none, none⟩, []) [] (by decide)
    rw [h]
    decide
  · exact claim_C4_amended.2.1 (some ⟨"691".data, "691".data, "691".data⟩, [])
      ("\t".data) (by decide)
  · exact claim_C4_amended.2.2.1 ["1987 書".data]
      ⟨some ("1987 書".data), some ("1987 書".data), none⟩ (by decide)
  · exact claim_C4_amended.2.2.2 ("691".data)
      ⟨"691".data, "691".data, "691".data⟩ (by decide)

/-! ## Lemmas for claim C10 (whitespace collapsing kills all newlines) -/

theorem collapseAux_mem (c : Char) : ∀ (b : Bool) (s : List Char),
    c ∈ collapseAux b s → c = ' ' ∨ (c ∈ s ∧ isSpaceChar c = false) := by
  intro b s
  induction s generalizing b with
  | nil => intro h; simp [collapseAux] at h
  | cons a t ih =>
    intro h
    by_cases ha : isSpaceChar a = true
    · cases b with
      | true =>
        have heq : collapseAux true (a :: t) = collapseAux true t := by
          simp [collapseAux, ha]
        rw [heq] at h
        rcases ih true h with h' | ⟨hm, hsp⟩
        · exact Or.inl h'
        · exact Or.inr ⟨List.mem_cons.2 (Or.inr hm), hsp⟩
      | false =>
        have heq : collapseAux false (a :: t) = ' ' :: collapseAux true t := by
          simp [collapseAux, ha]
        rw [heq] at h
        rcases List.mem_cons.1 h with rfl | h'
        · exact Or.inl rfl
        · rcases ih true h' with h'' | ⟨hm, hsp⟩
          · exact Or.inl h''
          · exact Or.inr ⟨List.mem_cons.2 (Or.inr hm), hsp⟩
    · have ha2 : isSpaceChar a = false := by simpa using ha
      have heq : collapseAux b (a :: t) = a :: collapseAux false t := by
        simp [collapseAux, ha2]
      rw [heq] at h
      rcases List.mem_cons.1 h with rfl | h'
      · exact Or.inr ⟨List.mem_cons.2 (Or.inl rfl), ha2⟩
      · rcases ih false h' with h'' | ⟨hm, hsp⟩
        · exact Or.inl h''
        · exact Or.inr ⟨List.mem_cons.2 (Or.inr hm), hsp⟩

theorem strip_subset (s : List Char) : ∀ c ∈ strip s, c ∈ s := by
  intro c hc
  unfold strip at hc
  rw [List.mem_reverse] at hc
  have h1 : c ∈ (s.dropWhile isSpaceChar).reverse :=
    (List.dropWhile_suffix isSpaceChar).sublist.subset hc
  rw [List.mem_reverse] at h1
  exact (List.dropWhile_suffix isSpaceChar).sublist.subset h1

theorem clean_no_newline (t : List Char) : '\n' ∉ clean_ocr_text t := by
  intro h
  unfold clean_ocr_text at h
  rcases List.mem_map.1 h with ⟨c1, hc1, he1⟩
  have h1 : c1 = '\n' := by
    by_cases h0 : c1 = '0'
    · rw [h0] at he1
      simp at he1
    · simpa [h0] using he1
  subst h1
  rcases List.mem_map.1 hc1 with ⟨c2, hc2, he2⟩
  have h2 : c2 = '\n' := by
    by_cases h0 : c2 = '|'
    · rw [h0] at he2
      simp at he2
    · simpa [h0] using he2
  subst h2
  have h3 := strip_subset _ '\n' hc2
  rcases collapseAux_mem '\n' false t h3 with h' | ⟨_, hsp⟩
  · exact absurd h' (by decide)
  · exact absurd hsp (by decide)

theorem splitLines_eq_single (s : List Char) (h : '\n' ∉ s) : splitLines s = [s] := by
  induction s with
  | nil => rfl
  | cons a t ih =>
    have ha : ¬ (a = '\n') := fun hh => h (by simp [hh])
    have ht := ih (fun hm => h (by simp [hm]))
    simp [splitLines, ha, ht]

theorem extractStep_snd_nil (l : List Char) :
    (extractStep (emptyBib, []) l).2 = [] := by
  unfold extractStep
  split
  · split
    · rfl
    next hne => exact absurd rfl hne
  · rfl

/-- Counterexample for claim C10: with two empty pages the whole cleaned text
IS exactly the page-break marker, so the single line equals the marker —
contradicting "a page-break marker can never equal a whole line".  (The
output is still empty: the marker line only flushes.) -/
theorem claim_C10_counterexample :
    splitLines (clean_ocr_text (joinSep pageSep [[], []])) = [pageBreakMarker] ∧
    pageBreakMarker = "=== PAGE BREAK ===".data ∧
    (extract_bibliographic_entries [[], []]).1 = [] :=
  ⟨by decide, by decide, by decide⟩

/-- Claim C10 (amended): `clean_ocr_text` replaces every whitespace run by a
single space, so the cleaned text contains no newline, the split yields a
single line, and `extract_bibliographic_entries` returns at most one entry.
The single line can equal the page-break marker (exactly when the collapsed
join is the marker itself, as with whitespace-only pages); it is then treated
as a flush line and the result is empty. -/
theorem claim_C10_amended (pages : List (List Char)) :
    (extract_bibliographic_entries pages).1.length ≤ 1 ∧
      '\n' ∉ (extract_bibliographic_entries pages).2 ∧
      splitLines (clean_ocr_text (joinSep pageSep pages)) =
        [clean_ocr_text (joinSep pageSep pages)] := by
  have hnl := clean_no_newline (joinSep pageSep pages)
  have hsingle := splitLines_eq_single _ hnl
  refine ⟨?_, hnl, hsingle⟩
  show (extractFlush ((splitLines (clean_ocr_text (joinSep pageSep pages))).foldl
      extractStep (emptyBib, []))).length ≤ 1
  rw [hsingle]
  simp only [List.foldl_cons, List.foldl_nil]
  unfold extractFlush
  split
  · rw [extractStep_snd_nil]
    simp
  · rw [extractStep_snd_nil]
    simp

/-! ## Lemmas about the similarity model -/

theorem runLen_le_left (a : List Char) : ∀ b, runLen a b ≤ a.length := by
  induction a with
  | nil => intro b; cases b <;> simp [runLen]
  | cons x xs ih =>
    intro b
    cases b with
    | nil => simp [runLen]
    | cons y ys =>
      unfold runLen
      split
      · exact Nat.succ_le_succ (ih ys)
      · simp

theorem runLen_self (l : List Char) : runLen l l = l.length := by
  induction l with
  | nil => rfl
  | cons x xs ih => simp [runLen, ih]

theorem runLen_zero_of_disjoint (a b : List Char) (h : ∀ c ∈ a, c ∉ b) :
    runLen a b = 0 := by
  cases a with
  | nil => cases b <;> rfl
  | cons x xs =>
    cases b with
    | nil => rfl
    | cons y ys =>
      have hx : ¬ (x = y) := by
        intro hh
        exact h x (by simp) (by simp [hh])
      simp [runLen, hx]

theorem foldl_bestStep_keep (a b : List Char) :
    ∀ (l : List (Nat × Nat)) (acc : Nat × Nat × Nat),
      (∀ p ∈ l, runLen (a.drop p.1) (b.drop p.2) ≤ acc.2.2) →
      l.foldl (bestStep a b) acc = acc := by
  intro l
  induction l with
  | nil => intro acc _; rfl
  | cons p t ih =>
    intro acc h
    have hp := h p (by simp)
    have hstep : bestStep a b acc p = acc := by
      unfold bestStep
      rw [if_neg (by omega)]
    rw [List.foldl_cons, hstep]
    exact ih acc (fun q hq => h q (by simp [hq]))

theorem mem_allPairs (m n : Nat) (i j : Nat) :
    (i, j) ∈ allPairs m n ↔ i < m ∧ j < n := by
  unfold allPairs pairRow
  simp [List.mem_flatten, List.mem_map, List.mem_range, Prod.ext_iff]

theorem foldl_bestStep_max (a b : List Char) (K : Nat) (p0 : Nat × Nat)
    (hK : runLen (a.drop p0.1) (b.drop p0.2) = K) :
    ∀ (l : List (Nat × Nat)) (acc : Nat × Nat × Nat),
      p0 ∈ l →
      (∀ p ∈ l, runLen (a.drop p.1) (b.drop p.2) ≤ K) →
      (∀ p ∈ l, p ≠ p0 → runLen (a.drop p.1) (b.drop p.2) < K) →
      acc.2.2 < K →
      l.foldl (bestStep a b) acc = (p0.1, p0.2, K) := by
  intro l
  induction l with
  | nil =>
    intro acc h
    simp at h
  | cons q t ih =>
    intro acc hmem hle hlt hacc
    rw [List.foldl_cons]
    by_cases hq : q = p0
    · subst hq
      have hstep : bestStep a b acc q = (q.1, q.2, K) := by
        unfold bestStep
        rw [hK, if_pos hacc]
      rw [hstep]
      apply foldl_bestStep_keep
      intro p hp
      exact hle p (by simp [hp])
    · have hmem' : p0 ∈ t := by
        rcases List.mem_cons.1 hmem with h | h
        · exact absurd h.symm hq
        · exact h
      have hv := hlt q (by simp) hq
      have hstep : (bestStep a b acc q).2.2 < K := by
        unfold bestStep
        split
        · exact hv
        · exact hacc
      exact ih (bestStep a b acc q) hmem' (fun p hp => hle p (by simp [hp]))
        (fun p hp hne => hlt p (by simp [hp]) hne) hstep

theorem runLen_le_right (a : List Char) : ∀ b, runLen a b ≤ b.length := by
  induction a with
  | nil => intro b; cases b <;> simp [runLen]
  | cons x xs ih =>
    intro b
    cases b with
    | nil => simp [runLen]
    | cons y ys =>
      unfold runLen
      split
      · exact Nat.succ_le_succ (ih ys)
      · simp

theorem findBest_self (s : List Char) (hs : s ≠ []) :
    findBest s s = (0, 0, s.length) := by
  have hmem : ((0 : Nat), (0 : Nat)) ∈ allPairs s.length s.length := by
    rw [mem_allPairs]
    have : 0 < s.length := List.length_pos.2 hs
    omega
  unfold findBest
  have h := foldl_bestStep_max s s s.length (0, 0) (runLen_self s)
    (allPairs s.length s.length) (0, 0, 0) hmem ?hle ?hlt ?hacc
  case hle =>
    intro p hp
    calc runLen (s.drop p.1) (s.drop p.2)
        ≤ (s.drop p.1).length := runLen_le_left _ _
      _ ≤ s.length := by
          rw [List.length_drop]
          omega
  case hlt =>
    intro p hp hne
    rcases Nat.eq_zero_or_pos p.1 with h1 | h1
    · rcases Nat.eq_zero_or_pos p.2 with h2 | h2
      · exact absurd (Prod.ext h1 h2) hne
      · calc runLen (s.drop p.1) (s.drop p.2)
            ≤ (s.drop p.2).length := runLen_le_right _ _
          _ < s.length := by
              rw [List.length_drop]
              rcases hp0 : p with ⟨p1, p2⟩
              rw [hp0] at hp h2
              have := (mem_allPairs s.length s.length p1 p2).1 hp
              omega
    · calc runLen (s.drop p.1) (s.drop p.2)
          ≤ (s.drop p.1).length := runLen_le_left _ _
        _ < s.length := by
            rw [List.length_drop]
            rcases hp0 : p with ⟨p1, p2⟩
            rw [hp0] at hp h1
            have := (mem_allPairs s.length s.length p1 p2).1 hp
            omega
  case hacc =>
    exact List.length_pos.2 hs
  exact h

theorem matchingMF_succ (f : Nat) (a b : List Char) :
    matchingMF (f + 1) a b =
      if (findBest a b).2.2 = 0 then 0
      else matchingMF f (a.take (findBest a b).1) (b.take (findBest a b).2.1) +
        (findBest a b).2.2 +
        matchingMF f (a.drop ((findBest a b).1 + (findBest a b).2.2))
          (b.drop ((findBest a b).2.1 + (findBest a b).2.2)) := rfl

theorem matchingMF_nil_left (f : Nat) (b : List Char) : matchingMF f [] b = 0 := by
  cases f with
  | zero => rfl
  | succ g =>
    have hfb : findBest [] b = (0, 0, 0) := by
      unfold findBest allPairs
      rfl
    rw [matchingMF_succ, hfb, if_pos rfl]

theorem matchingM_self (s : List Char) : matchingM s s = s.length := by
  unfold matchingM
  cases hc : s with
  | nil => rfl
  | cons c t =>
    rw [show (c :: t).length + 1 = (c :: t).length + 1 from rfl, matchingMF_succ,
      findBest_self (c :: t) (by simp)]
    rw [if_neg (by simp)]
    dsimp only
    rw [List.take_zero, Nat.zero_add, List.drop_length, matchingMF_nil_left]
    omega

theorem similarity_self (s : List Char) : similarity s s = 1 := by
  unfold similarity
  cases s with
  | nil => rfl
  | cons c t =>
    rw [if_neg (by simp), matchingM_self, Rat.mkRat_eq_div]
    simp only [List.length_cons]
    have hL : ((t.length : ℚ) + 1) ≠ 0 := by positivity
    push_cast
    field_simp
    ring

theorem findBest_disjoint (a b : List Char) (h : ∀ c ∈ a, c ∉ b) :
    findBest a b = (0, 0, 0) := by
  unfold findBest
  apply foldl_bestStep_keep
  intro p hp
  have hz : runLen (a.drop p.1) (b.drop p.2) = 0 :=
    runLen_zero_of_disjoint _ _
      (fun x hx hxb => h x (List.drop_subset _ _ hx) (List.drop_subset _ _ hxb))
  omega

theorem similarity_disjoint (a b : List Char) (ha : a ≠ [])
    (h : ∀ c ∈ a, c ∉ b) : similarity a b = 0 := by
  have hM : matchingM a b = 0 := by
    unfold matchingM
    cases a with
    | nil => exact absurd rfl ha
    | cons c t => simp [matchingMF, findBest_disjoint _ _ h]
  unfold similarity
  rw [hM]
  rw [if_neg ?hne]
  case hne =>
    cases a with
    | nil => exact absurd rfl ha
    | cons c t => simp
  simp [Rat.mkRat_eq_div]

theorem bestStepQ_le (t : List Char) (acc : Option PdfEntry × ℚ) (e : PdfEntry) :
    acc.2 ≤ (bestStepQ t acc e).2 := by
  unfold bestStepQ
  split
  next h => exact le_of_lt h
  next => exact le_refl _

theorem bestOf_foldl_mono (t : List Char) (es : List PdfEntry) :
    ∀ acc, acc.2 ≤ (es.foldl (bestStepQ t) acc).2 := by
  induction es with
  | nil => intro acc; exact le_refl _
  | cons e es ih =>
    intro acc
    rw [List.foldl_cons]
    exact le_trans (bestStepQ_le t acc e) (ih _)

theorem bestOf_foldl_ge (t : List Char) :
    ∀ (es : List PdfEntry) (acc : Option PdfEntry × ℚ) (e : PdfEntry), e ∈ es →
      similarity t e.text ≤ (es.foldl (bestStepQ t) acc).2 := by
  intro es
  induction es with
  | nil =>
    intro acc e h
    simp at h
  | cons x xs ih =>
    intro acc e hmem
    rw [List.foldl_cons]
    rcases List.mem_cons.1 hmem with rfl | hmem
    · refine le_trans ?_ (bestOf_foldl_mono t xs _)
      unfold bestStepQ
      split
      next => exact le_refl _
      next hnlt => exact not_lt.1 hnlt
    · exact ih _ e hmem

theorem bestOf_ge (t : List Char) (es : List PdfEntry) (e : PdfEntry) (he : e ∈ es) :
    similarity t e.text ≤ (bestOf t es).2 :=
  bestOf_foldl_ge t es (none, 0) e he

theorem foldl_preserve_mem {α β : Type} (P : α → Prop) (step : α → β → α) :
    ∀ (l : List β), (∀ st x, x ∈ l → P st → P (step st x)) →
      ∀ st, P st → P (l.foldl step st) := by
  intro l
  induction l with
  | nil => intro _ st hst; exact hst
  | cons x t ih =>
    intro h st hst
    rw [List.foldl_cons]
    exact ih (fun st' y hy => h st' y (List.mem_cons.2 (Or.inr hy))) (step st x)
      (h st x (by simp) hst)

theorem bestOf_none (t : List Char) (es : List PdfEntry)
    (h : (bestOf t es).1 = none) : (bestOf t es).2 = 0 := by
  have hP := foldl_preserve (fun st : Option PdfEntry × ℚ => st.1 = none → st.2 = 0)
    (bestStepQ t) ?hstep es (none, 0) (fun _ => rfl)
  case hstep =>
    intro st x hst
    unfold bestStepQ
    split
    · intro hh
      simp at hh
    · exact hst
  exact hP h

theorem bestOf_le (t : List Char) (es : List PdfEntry) (q : ℚ) (hq : 0 ≤ q)
    (h : ∀ e ∈ es, similarity t e.text ≤ q) : (bestOf t es).2 ≤ q := by
  have hP := foldl_preserve_mem (fun st : Option PdfEntry × ℚ => st.2 ≤ q)
    (bestStepQ t) es ?hstep (none, 0) hq
  case hstep =>
    intro st x hx hst
    unfold bestStepQ
    split
    · exact h x hx
    · exact hst
  exact hP

theorem matchAux_cons_hit (entries : List PdfEntry) (idx : Nat) (t : List Char)
    (rest : List (List Char)) (e : PdfEntry) (q : ℚ)
    (hie : (strip t).isEmpty = false)
    (hbb : bestOf (strip t) entries = (some e, q))
    (hq : mkRat 3 10 < q) :
    matchAux entries idx (t :: rest) =
      ⟨idx, e, q⟩ :: matchAux entries (idx + 1) rest := by
  conv_lhs => unfold matchAux
  rw [hie, hbb]
  simp only [Bool.false_eq_true, if_false, if_pos hq]

theorem matchAux_emit (entries : List PdfEntry) :
    ∀ (csv : List (List Char)) (idx k : Nat) (hk : k < csv.length),
      strip (csv.get ⟨k, hk⟩) ≠ [] →
      mkRat 3 10 < (bestOf (strip (csv.get ⟨k, hk⟩)) entries).2 →
      ∃ m ∈ matchAux entries idx csv, m.csv_index = idx + k ∧
        m.confidence = (bestOf (strip (csv.get ⟨k, hk⟩)) entries).2 := by
  intro csv
  induction csv with
  | nil =>
    intro idx k hk
    simp at hk
  | cons t rest ih =>
    intro idx k hk hne hth
    cases k with
    | zero =>
      have hget : (t :: rest).get ⟨0, hk⟩ = t := rfl
      rw [hget] at hne hth
      have hie : (strip t).isEmpty = false := by
        cases hst : strip t with
        | nil => exact absurd hst hne
        | cons a b => rfl
      have hpos : (0 : ℚ) < (bestOf (strip t) entries).2 :=
        lt_trans (by decide) hth
      cases hbb : bestOf (strip t) entries with
      | mk o q =>
        cases o with
        | none =>
          exfalso
          have h0 := bestOf_none (strip t) entries (by rw [hbb])
          rw [hbb] at h0 hpos
          simp only at h0 hpos
          rw [h0] at hpos
          exact lt_irrefl _ hpos
        | some e =>
          rw [hbb] at hth
          have hth' : mkRat 3 10 < q := hth
          refine ⟨⟨idx, e, q⟩, ?_, by simp, by rw [hget, hbb]⟩
          rw [matchAux_cons_hit entries idx t rest e q hie hbb hth']
          exact List.mem_cons.2 (Or.inl rfl)
    | succ k' =>
      have hk' : k' < rest.length := by simpa using hk
      have hget : (t :: rest).get ⟨k' + 1, hk⟩ = rest.get ⟨k', hk'⟩ := rfl
      rw [hget] at hne hth
      obtain ⟨m, hm, hidx, hconf⟩ := ih (idx + 1) k' hk' hne hth
      refine ⟨m, ?_, by omega, by rw [hget]; exact hconf⟩
      unfold matchAux
      split
      · exact hm
      · split
        next e bs heq =>
          split
          · exact List.mem_cons.2 (Or.inr hm)
          · exact hm
        next => exact hm

theorem matchAux_produce (entries : List PdfEntry) :
    ∀ (csv : List (List Char)) (idx : Nat), ∀ m ∈ matchAux entries idx csv,
      ∃ k, ∃ hk : k < csv.length, m.csv_index = idx + k ∧
        strip (csv.get ⟨k, hk⟩) ≠ [] ∧
        m.confidence = (bestOf (strip (csv.get ⟨k, hk⟩)) entries).2 ∧
        mkRat 3 10 < m.confidence := by
  intro csv
  induction csv with
  | nil =>
    intro idx m hm
    simp [matchAux] at hm
  | cons t rest ih =>
    intro idx m hm
    unfold matchAux at hm
    split at hm
    next hie =>
      obtain ⟨k, hk, h1, h2, h3, h4⟩ := ih (idx + 1) m hm
      exact ⟨k + 1, by simpa using hk, by omega, h2, h3, h4⟩
    next hie =>
      have hne : strip t ≠ [] := by
        intro hh
        rw [hh] at hie
        exact hie rfl
      split at hm
      next e bs heq =>
        split at hm
        next hth =>
          rcases List.mem_cons.1 hm with rfl | hm
          · refine ⟨0, by simp, by simp, hne, ?_, ?_⟩
            · show bs = (bestOf (strip t) entries).2
              rw [heq]
            · exact hth
          · obtain ⟨k, hk, h1, h2, h3, h4⟩ := ih (idx + 1) m hm
            exact ⟨k + 1, by simpa using hk, by omega, h2, h3, h4⟩
        next =>
          obtain ⟨k, hk, h1, h2, h3, h4⟩ := ih (idx + 1) m hm
          exact ⟨k + 1, by simpa using hk, by omega, h2, h3, h4⟩
      next heq =>
        obtain ⟨k, hk, h1, h2, h3, h4⟩ := ih (idx + 1) m hm
        exact ⟨k + 1, by simpa using hk, by omega, h2, h3, h4⟩

theorem pdfColumns_length (n : Nat) (ms : List MatchRec) :
    (pdfColumns n ms).length = n := by
  unfold pdfColumns
  have hfold : ∀ (l : List MatchRec) (init : List Enhanced),
      (l.foldl (fun cols m =>
        cols.set m.csv_index ⟨true, m.confidence, m.pdf_entry.raw_line.take 200⟩)
        init).length = init.length := by
    intro l
    induction l with
    | nil => intro init; rfl
    | cons m ms2 ih =>
      intro init
      rw [List.foldl_cons, ih, List.length_set]
  rw [hfold, List.length_replicate]

theorem pdfColumns_untouched (n : Nat) (ms : List MatchRec) (k : Nat) (hk : k < n)
    (h : ∀ m ∈ ms, m.csv_index ≠ k) :
    (pdfColumns n ms)[k]? = some defaultEnhanced := by
  unfold pdfColumns
  have hfold : ∀ (l : List MatchRec) (init : List Enhanced),
      (∀ m ∈ l, m.csv_index ≠ k) →
      (l.foldl (fun cols m =>
        cols.set m.csv_index ⟨true, m.confidence, m.pdf_entry.raw_line.take 200⟩)
        init)[k]? = init[k]? := by
    intro l
    induction l with
    | nil => intro init _; rfl
    | cons m ms2 ih =>
      intro init hml
      rw [List.foldl_cons, ih _ (fun m' hm' => hml m' (List.mem_cons.2 (Or.inr hm')))]
      exact List.getElem?_set_ne (hml m (by simp))
  rw [hfold ms _ h, List.getElem?_replicate, if_pos hk]

theorem zip_getElem? {α β : Type} :
    ∀ (as : List α) (bs : List β) (k : Nat) (a : α) (b : β),
      as[k]? = some a → bs[k]? = some b → (as.zip bs)[k]? = some (a, b) := by
  intro as
  induction as with
  | nil =>
    intro bs k a b h
    simp at h
  | cons x xs ih =>
    intro bs k a b ha hb
    cases bs with
    | nil => simp at hb
    | cons y ys =>
      cases k with
      | zero =>
        simp only [List.getElem?_cons_zero, Option.some.injEq] at ha hb
        subst ha
        subst hb
        simp [List.zip_cons_cons]
      | succ k' =>
        simp only [List.getElem?_cons_succ] at ha hb
        simpa [List.zip_cons_cons] using ih ys k' a b ha hb

/-- Counterexample for claim C5: a record whose (empty) title exactly equals
a catalog entry's (empty) text is skipped by `match_pdf_to_csv` because empty
titles are filtered out — the record is NOT accepted. -/
theorem claim_C5_counterexample :
    (⟨[], [], []⟩ : PdfEntry).text = ([] : List Char) ∧
    match_pdf_to_csv [⟨[], [], []⟩] [([] : List Char)] = [] :=
  ⟨rfl, by decide⟩

/-- Claim C5 (amended): if a record's title is already stripped, nonempty and
exactly equals some catalog entry's text, the similarity of that pair is 1
and the record is accepted (a match carries its index); a record sharing no
character with any entry's text is never confirmed. -/
theorem claim_C5_amended :
    (∀ (entries : List PdfEntry) (csv : List (List Char)) (k : Nat) (t : List Char)
        (hk : k < csv.length), csv.get ⟨k, hk⟩ = t → strip t = t → t ≠ [] →
        ∀ e ∈ entries, e.text = t →
        similarity t e.text = 1 ∧
          ∃ m ∈ match_pdf_to_csv entries csv, m.csv_index = k) ∧
    (∀ (entries : List PdfEntry) (csv : List (List Char)) (k : Nat) (t : List Char)
        (hk : k < csv.length), csv.get ⟨k, hk⟩ = t →
        (∀ e ∈ entries, ∀ c ∈ t, c ∉ e.text) →
        ∀ m ∈ match_pdf_to_csv entries csv, m.csv_index ≠ k) := by
  constructor
  · intro entries csv k t hk hget hstrip hne e he hetext
    have hsim : similarity t e.text = 1 := by
      rw [hetext]
      exact similarity_self t
    refine ⟨hsim, ?_⟩
    have hth : mkRat 3 10 < (bestOf (strip (csv.get ⟨k, hk⟩)) entries).2 := by
      rw [hget, hstrip]
      calc mkRat 3 10 < 1 := by decide
        _ = similarity t e.text := hsim.symm
        _ ≤ (bestOf t entries).2 := bestOf_ge t entries e he
    have hne' : strip (csv.get ⟨k, hk⟩) ≠ [] := by
      rw [hget, hstrip]
      exact hne
    obtain ⟨m, hm, hidx, _⟩ := matchAux_emit entries csv 0 k hk hne' hth
    exact ⟨m, hm, by omega⟩
  · intro entries csv k t hk hget hdisj m hm hmk
    obtain ⟨j, hj, hidx, hjne, hconf, hth⟩ := matchAux_produce entries csv 0 m hm
    have hjk : j = k := by omega
    subst hjk
    rw [hget] at hjne hconf
    have hsub : ∀ c ∈ strip t, c ∉ m.pdf_entry.text → True := fun _ _ _ => trivial
    have hzero : ∀ e ∈ entries, similarity (strip t) e.text ≤ 0 := by
      intro e he
      rw [similarity_disjoint (strip t) e.text hjne
        (fun c hc => hdisj e he c (strip_subset t c hc))]
    have hble : (bestOf (strip t) entries).2 ≤ 0 :=
      bestOf_le _ entries 0 (le_refl _) hzero
    rw [hconf] at hth
    have h310 : (0 : ℚ) < mkRat 3 10 := by decide
    linarith

/-- Witness for claim C5 (amended): an exact-equal title/entry pair is
accepted with similarity 1, and a character-disjoint record is never
matched. -/
theorem claim_C5_witness :
    (similarity ("ab".data) ((⟨"ab".data, "691".data, "ab".data⟩ : PdfEntry).text) = 1 ∧
      ∃ m ∈ match_pdf_to_csv [⟨"ab".data, "691".data, "ab".data⟩] ["ab".data],
        m.csv_index = 0) ∧
    (∀ m ∈ match_pdf_to_csv [⟨"xyz".data, "xyz".data, "xyz".data⟩] ["ab".data],
        m.csv_index ≠ 0) :=
  ⟨claim_C5_amended.1 [⟨"ab".data, "691".data, "ab".data⟩] ["ab".data] 0 ("ab".data)
      (by decide) rfl (by decide) (by decide) ⟨"ab".data, "691".data, "ab".data⟩
      (by decide) rfl,
   claim_C5_amended.2 [⟨"xyz".data, "xyz".data, "xyz".data⟩] ["ab".data] 0 ("ab".data)
      (by decide) rfl (by decide)⟩

/-- Claim C6: when no catalog entry scores above the 0.30 threshold for a
record, the linking stage completes (it is a total function) and leaves that
record's pdf link columns at their defaults: confirmed = false,
confidence = 0, matched excerpt = "". -/
theorem claim_C6 (entries : List PdfEntry) (csv : List (List Char)) (k : Nat)
    (hk : k < csv.length)
    (h : ∀ e ∈ entries, similarity (strip (csv.get ⟨k, hk⟩)) e.text ≤ mkRat 3 10) :
    (enhance_records_with_pdf csv (match_pdf_to_csv entries csv))[k]? =
      some (csv.get ⟨k, hk⟩, defaultEnhanced) := by
  have hnok : ∀ m ∈ match_pdf_to_csv entries csv, m.csv_index ≠ k := by
    intro m hm hmk
    obtain ⟨j, hj, hidx, hjne, hconf, hth⟩ := matchAux_produce entries csv 0 m hm
    have hq : (⟨j, hj⟩ : Fin csv.length) = ⟨k, hk⟩ :=
      Fin.ext (by simpa using (by omega : j = k))
    rw [hq] at hconf
    have hble := bestOf_le (strip (csv.get ⟨k, hk⟩)) entries (mkRat 3 10) (by decide) h
    rw [hconf] at hth
    exact absurd hth (not_lt.2 hble)
  have hcol : (pdfColumns csv.length (match_pdf_to_csv entries csv))[k]? =
      some defaultEnhanced := pdfColumns_untouched _ _ k hk hnok
  have hcsv : csv[k]? = some (csv.get ⟨k, hk⟩) := by
    rw [List.get_eq_getElem, List.getElem?_eq_getElem hk]
  exact zip_getElem? csv _ k _ _ hcsv hcol

/-- Witness for claim C6: a record with no entry above the threshold keeps
its default link columns. -/
theorem claim_C6_witness :
    (enhance_records_with_pdf ["ab".data]
        (match_pdf_to_csv [⟨"xyz".data, "xyz".data, "xyz".data⟩] ["ab".data]))[0]? =
      some (("ab".data : List Char), defaultEnhanced) :=
  claim_C6 [⟨"xyz".data, "xyz".data, "xyz".data⟩] ["ab".data] 0 (by decide)
    (by decide)

/-- Counterexample for claim C7: `read_and_process_csv` DROPS records whose
city cannot be normalized (here the unknown marker ？) — the output batch is
shorter than the input, so the pass does not always return a same-length
batch. -/
theorem claim_C7_counterexample :
    (read_and_process_csv [⟨"a".data, "b".data, "？".data, "c".data⟩]).length = 0 ∧
    ([⟨"a".data, "b".data, "？".data, "c".data⟩] : List AtlasRow).length = 1 :=
  ⟨by decide, rfl⟩

/-- Claim C7 (amended): the pdf-enhancement pass `enhance_records_with_pdf`
returns a batch of exactly the input length, and a record not touched by any
match keeps its row data with default pdf columns; `read_and_process_csv`,
in contrast, drops records that fail city normalization or geocoding, so its
output can be shorter than its input. -/
theorem claim_C7_amended :
    (∀ (csv : List (List Char)) (ms : List MatchRec),
        (enhance_records_with_pdf csv ms).length = csv.length) ∧
    (∀ (csv : List (List Char)) (ms : List MatchRec) (k : Nat) (hk : k < csv.length),
        (∀ m ∈ ms, m.csv_index ≠ k) →
        (enhance_records_with_pdf csv ms)[k]? =
          some (csv.get ⟨k, hk⟩, defaultEnhanced)) := by
  constructor
  · intro csv ms
    unfold enhance_records_with_pdf
    rw [List.length_zip, pdfColumns_length, min_self]
  · intro csv ms k hk h
    have hcol := pdfColumns_untouched csv.length ms k hk h
    have hcsv : csv[k]? = some (csv.get ⟨k, hk⟩) := by
      rw [List.get_eq_getElem, List.getElem?_eq_getElem hk]
    exact zip_getElem? csv _ k _ _ hcsv hcol

/-- Witness for claim C7 (amended): with no matches at all, the enhanced
batch has the input length and row 0 keeps its data with default columns. -/
theorem claim_C7_witness :
    (enhance_records_with_pdf ["t".data] []).length = 1 ∧
    (enhance_records_with_pdf ["t".data] [])[0]? =
      some (("t".data : List Char), defaultEnhanced) :=
  ⟨claim_C7_amended.1 ["t".data] [],
   claim_C7_amended.2 ["t".data] [] 0 (by decide) (by simp)⟩

/-! ## Lemmas for claim C8 (idempotence of the alias normalizers)

  The key fact: one pass of `re.sub(r'\([^)]*\)', '', s)` leaves no further
  match — its output decomposes as A ++ B with no `(` in A and no `)` in B,
  and any string of that shape is a fixed point. -/

theorem removeParensF_sub (c : Char) : ∀ f s, c ∈ removeParensF f s → c ∈ s := by
  intro f
  induction f with
  | zero => intro s h; exact h
  | succ g ih =>
    intro s h
    cases s with
    | nil =>
      simp only [removeParensF] at h
      exact h
    | cons a t =>
      unfold removeParensF at h
      by_cases ha : a = '('
      · rw [if_pos ha] at h
        cases hdw : t.dropWhile (fun d => d ≠ ')') with
        | nil =>
          rw [hdw] at h
          rcases List.mem_cons.1 h with rfl | h'
          · simp
          · exact List.mem_cons.2 (Or.inr (ih t h'))
        | cons r after =>
          rw [hdw] at h
          have h2 : c ∈ r :: after := List.mem_cons.2 (Or.inr (ih after h))
          have h3 : c ∈ t.dropWhile (fun d => d ≠ ')') := by
            rw [hdw]
            exact h2
          exact List.mem_cons.2
            (Or.inr ((List.dropWhile_suffix _).sublist.subset h3))
      · rw [if_neg ha] at h
        rcases List.mem_cons.1 h with rfl | h'
        · simp
        · exact List.mem_cons.2 (Or.inr (ih t h'))

theorem removeParensF_noPM : ∀ f (s : List Char), s.length ≤ f →
    ∃ A B, removeParensF f s = A ++ B ∧ '(' ∉ A ∧ ')' ∉ B := by
  intro f
  induction f with
  | zero =>
    intro s hs
    have hnil : s = [] := List.length_eq_zero.1 (Nat.le_zero.1 hs)
    subst hnil
    exact ⟨[], [], rfl, by simp, by simp⟩
  | succ g ih =>
    intro s hs
    cases s with
    | nil => exact ⟨[], [], rfl, by simp, by simp⟩
    | cons a t =>
      simp only [List.length_cons] at hs
      have ht : t.length ≤ g := by omega
      unfold removeParensF
      by_cases ha : a = '('
      · rw [if_pos ha]
        cases hdw : t.dropWhile (fun d => d ≠ ')') with
        | nil =>
          have hnp : ')' ∉ t := by
            intro hmem
            have := List.dropWhile_eq_nil_iff.1 hdw ')' hmem
            simp at this
          refine ⟨[], a :: removeParensF g t, rfl, by simp, ?_⟩
          intro hmem
          rcases List.mem_cons.1 hmem with h | h
          · rw [ha] at h
            exact absurd h (by decide)
          · exact hnp (removeParensF_sub ')' g t h)
        | cons r after =>
          have hlen : after.length ≤ g := by
            have h1 : (t.dropWhile (fun d => d ≠ ')')).length ≤ t.length :=
              (List.dropWhile_suffix _).sublist.length_le
            rw [hdw] at h1
            simp only [List.length_cons] at h1
            omega
          exact ih after hlen
      · rw [if_neg ha]
        obtain ⟨A, B, hAB, hA, hB⟩ := ih t ht
        refine ⟨a :: A, B, ?_, ?_, hB⟩
        · rw [hAB]
          rfl
        · intro hmem
          rcases List.mem_cons.1 hmem with h | h
          · exact ha h.symm
          · exact hA h

theorem removeParensF_fix : ∀ f (A B : List Char), '(' ∉ A → ')' ∉ B →
    removeParensF f (A ++ B) = A ++ B := by
  intro f
  induction f with
  | zero => intro A B _ _; rfl
  | succ g ih =>
    intro A B hA hB
    cases A with
    | nil =>
      simp only [List.nil_append]
      cases B with
      | nil => rfl
      | cons b bs =>
        have hbs : ')' ∉ bs := fun h => hB (List.mem_cons.2 (Or.inr h))
        have hbsfix : removeParensF g bs = bs := by
          simpa using ih [] bs (by simp) hbs
        unfold removeParensF
        by_cases hb : b = '('
        · rw [if_pos hb]
          have hdw : bs.dropWhile (fun d => d ≠ ')') = [] := by
            rw [List.dropWhile_eq_nil_iff]
            intro x hx
            have : x ≠ ')' := fun hh => hbs (hh ▸ hx)
            simpa using this
          rw [hdw, hbsfix]
        · rw [if_neg hb, hbsfix]
    | cons a as =>
      have ha : ¬ (a = '(') := fun h => hA (by simp [h])
      have hA' : '(' ∉ as := fun h => hA (List.mem_cons.2 (Or.inr h))
      show removeParensF (g + 1) (a :: (as ++ B)) = a :: (as ++ B)
      unfold removeParensF
      rw [if_neg ha, ih as B hA' hB]

theorem noPM_sublist {r s : List Char}
    (h : ∃ A B, r = A ++ B ∧ '(' ∉ A ∧ ')' ∉ B) (hs : s.Sublist r) :
    ∃ A B, s = A ++ B ∧ '(' ∉ A ∧ ')' ∉ B := by
  obtain ⟨A, B, rfl, hA, hB⟩ := h
  obtain ⟨s1, s2, rfl, h1, h2⟩ := List.sublist_append_iff.1 hs
  exact ⟨s1, s2, rfl, fun hm => hA (h1.subset hm), fun hm => hB (h2.subset hm)⟩

theorem removeParens_fix_of_noPM (s : List Char)
    (h : ∃ A B, s = A ++ B ∧ '(' ∉ A ∧ ')' ∉ B) : removeParens s = s := by
  obtain ⟨A, B, rfl, hA, hB⟩ := h
  exact removeParensF_fix (A ++ B).length A B hA hB

theorem strip_sublist (s : List Char) : (strip s).Sublist s := by
  unfold strip
  have h1 : (s.dropWhile isSpaceChar).Sublist s := (List.dropWhile_suffix _).sublist
  have h2 : ((s.dropWhile isSpaceChar).reverse.dropWhile isSpaceChar).Sublist
      (s.dropWhile isSpaceChar).reverse := (List.dropWhile_suffix _).sublist
  have h3 := h2.reverse
  rw [List.reverse_reverse] at h3
  exact h3.trans h1

theorem dropWhile_idem (p : Char → Bool) (l : List Char) :
    (l.dropWhile p).dropWhile p = l.dropWhile p := by
  induction l with
  | nil => rfl
  | cons a t ih =>
    by_cases ha : p a = true
    · simp [List.dropWhile_cons, ha, ih]
    · simp [List.dropWhile_cons, ha]

theorem dropWhile_head_false (p : Char → Bool) :
    ∀ (l : List Char) (c : Char) (t : List Char),
      l.dropWhile p = c :: t → p c = false := by
  intro l
  induction l with
  | nil =>
    intro c t h
    simp at h
  | cons a l' ih =>
    intro c t h
    by_cases ha : p a = true
    · rw [List.dropWhile_cons, if_pos ha] at h
      exact ih c t h
    · rw [List.dropWhile_cons, if_neg ha] at h
      injection h with h1 h2
      subst h1
      simpa using ha

theorem strip_idem (s : List Char) : strip (strip s) = strip s := by
  have hrev : (strip s).reverse =
      (s.dropWhile isSpaceChar).reverse.dropWhile isSpaceChar := by
    unfold strip
    rw [List.reverse_reverse]
  have hdw : (strip s).dropWhile isSpaceChar = strip s := by
    cases he : strip s with
    | nil => rfl
    | cons c e' =>
      have hpre : strip s <+: s.dropWhile isSpaceChar :=
        List.reverse_suffix.1 (by rw [hrev]; exact List.dropWhile_suffix _)
      obtain ⟨tail, htail⟩ := hpre
      have hd : s.dropWhile isSpaceChar = c :: (e' ++ tail) := by
        rw [← htail, he]
        rfl
      have hc := dropWhile_head_false isSpaceChar s c (e' ++ tail) hd
      rw [List.dropWhile_cons, if_neg (by simp [hc])]
  have hsd : strip (strip s) =
      (((strip s).dropWhile isSpaceChar).reverse.dropWhile isSpaceChar).reverse := rfl
  rw [hsd, hdw, hrev, dropWhile_idem, ← hrev, List.reverse_reverse]

theorem strip_eq_self_of_sub (s t : List Char) (h : strip t = s) : strip s = s := by
  rw [← h]
  exact strip_idem t

theorem firstToken_no_space (s : List Char) :
    ∀ c ∈ firstToken s, isSpaceChar c = false := by
  intro c hc
  unfold firstToken at hc
  have := List.mem_takeWhile_imp hc
  simpa using this

theorem tokenPart_no_blank (c1 : List Char) (h : strip c1 = c1) :
    (∀ c ∈ tokenPart c1, c ∈ c1) ∧
      (' ' ∈ c1 → ∀ c ∈ tokenPart c1, isSpaceChar c = false) ∧
      strip (tokenPart c1) = tokenPart c1 := by
  unfold tokenPart
  by_cases hsp : ' ' ∈ c1
  · rw [if_pos hsp]
    refine ⟨?_, fun _ => firstToken_no_space c1, ?_⟩
    · intro c hc
      unfold firstToken at hc
      exact (List.dropWhile_suffix _).sublist.subset
        ((List.takeWhile_prefix _).sublist.subset hc)
    · exact strip_eq_self (firstToken c1) (firstToken_no_space c1)
  · rw [if_neg hsp]
    exact ⟨fun c hc => hc, fun hmem => absurd hmem hsp, h⟩

theorem cleanCore_props (c1 : List Char) (h : strip c1 = c1) :
    strip (cleanCore c1) = cleanCore c1 ∧ ' ' ∉ cleanCore c1 ∧
      '（' ∉ cleanCore c1 := by
  obtain ⟨hsub, hnb, hst⟩ := tokenPart_no_blank c1 h
  have hnosp : ' ' ∉ tokenPart c1 ∨ (∀ c ∈ tokenPart c1, isSpaceChar c = false) := by
    by_cases hsp : ' ' ∈ c1
    · exact Or.inr (hnb hsp)
    · exact Or.inl (fun hmem => hsp (hsub ' ' hmem))
  have hnospace : ' ' ∉ tokenPart c1 := by
    rcases hnosp with h' | h'
    · exact h'
    · intro hmem
      have := h' ' ' hmem
      exact absurd this (by decide)
  unfold cleanCore
  by_cases hp : '（' ∈ tokenPart c1
  · rw [if_pos hp]
    refine ⟨strip_idem _, ?_, ?_⟩
    · intro hmem
      have h1 := strip_subset _ ' ' hmem
      have h2 := (List.takeWhile_prefix (fun c => c ≠ '（')).sublist.subset h1
      exact hnospace h2
    · intro hmem
      have h1 := strip_subset _ '（' hmem
      have h2 := List.mem_takeWhile_imp h1
      simp at h2
  · rw [if_neg hp]
    exact ⟨hst, hnospace, hp⟩

theorem cleanCore_fix (y : List Char) (h1 : ' ' ∉ y) (h2 : '（' ∉ y) :
    cleanCore y = y := by
  unfold cleanCore tokenPart
  rw [if_neg h1, if_neg h2]

theorem alookup_mem : ∀ (l : List (List Char × List Char)) (k v : List Char),
    alookup l k = some v → (k, v) ∈ l := by
  intro l
  induction l with
  | nil =>
    intro k v h
    simp [alookup] at h
  | cons p t ih =>
    intro k v h
    cases p with
    | mk k' v' =>
      unfold alookup at h
      by_cases hk : k' = k
      · rw [if_pos hk] at h
        simp only [Option.some.injEq] at h
        exact List.mem_cons.2 (Or.inl (by rw [Prod.mk.injEq]; exact ⟨hk.symm, h.symm⟩))
      · rw [if_neg hk] at h
        exact List.mem_cons.2 (Or.inr (ih k v h))

theorem ultraClean_noPM (s : List Char) :
    ∃ A B, ultraClean s = A ++ B ∧ '(' ∉ A ∧ ')' ∉ B := by
  have h1 := removeParensF_noPM s.length s (le_refl _)
  have hsub : (ultraClean s).Sublist (removeParens s) := by
    unfold ultraClean
    exact (strip_sublist _).trans (List.filter_sublist _)
  exact noPM_sublist h1 hsub

theorem ultraClean_fix (s : List Char) : ultraClean (ultraClean s) = ultraClean s := by
  have hrp : removeParens (ultraClean s) = ultraClean s :=
    removeParens_fix_of_noPM _ (ultraClean_noPM s)
  have hfil : (ultraClean s).filter (fun d => d ≠ '市' && d ≠ '省') = ultraClean s := by
    rw [List.filter_eq_self]
    intro a ha
    have h1 : a ∈ (removeParens s).filter (fun d => d ≠ '市' && d ≠ '省') :=
      strip_subset _ a ha
    exact (List.mem_filter.1 h1).2
  show strip ((removeParens (ultraClean s)).filter (fun d => d ≠ '市' && d ≠ '省')) =
    ultraClean s
  rw [hrp, hfil]
  exact strip_eq_self_of_sub _ _ rfl

theorem ultra_keys_fixed : ∀ k ∈ cityKeysUltra, standardize_city_ultra k = some k := by
  decide

theorem combinedClean_fix (s : List Char) :
    combinedClean (combinedClean s) = combinedClean s := by
  have h1 := removeParensF_noPM (strip s).length (strip s) (le_refl _)
  have hsub : (combinedClean s).Sublist (removeParens (strip s)) := by
    unfold combinedClean
    exact strip_sublist _
  have hrp : removeParens (combinedClean s) = combinedClean s :=
    removeParens_fix_of_noPM _ (noPM_sublist h1 hsub)
  show strip (removeParens (strip (combinedClean s))) = combinedClean s
  rw [show strip (combinedClean s) = combinedClean s from strip_eq_self_of_sub _ _ rfl,
    hrp]
  exact strip_eq_self_of_sub _ _ rfl

theorem combined_vals_fixed :
    ∀ p ∈ cityMapCombined, standardize_city_combined p.2 = p.2 := by decide

theorem atlas_vals_fixed :
    ∀ p ∈ stdMapAtlas, clean_city_name p.2 = some p.2 := by decide

/-- Counterexample for claim C8: `clean_city_name` is NOT idempotent — on
"？ 上海" it returns the non-null string "？", but re-normalizing "？" yields
None. -/
theorem claim_C8_counterexample :
    clean_city_name ("？ 上海".data) = some ("？".data) ∧
    clean_city_name ("？".data) = none :=
  ⟨by decide, by decide⟩

/-- Claim C8 (amended): `standardize_city` of generate_atlas_ultra.py and
`standardize_city` of generate_combined_map.py are idempotent on every
(non-null) result; `clean_city_name` of generate_atlas.py is idempotent on a
non-null result y only when y is neither the empty string nor the unknown
marker ？ (both can be produced from larger inputs, and re-normalizing them
yields None). -/
theorem claim_C8_amended :
    (∀ x y : List Char, standardize_city_ultra x = some y →
        standardize_city_ultra y = some y) ∧
    (∀ x : List Char,
        standardize_city_combined (standardize_city_combined x) =
          standardize_city_combined x) ∧
    (∀ x y : List Char, clean_city_name x = some y → y ≠ [] → y ≠ "？".data →
        clean_city_name y = some y) := by
  refine ⟨?_, ?_, ?_⟩
  · intro x y h
    unfold standardize_city_ultra at h
    split at h
    next k hfind =>
      simp only [Option.some.injEq] at h
      subst h
      exact ultra_keys_fixed _ (List.mem_of_find?_eq_some hfind)
    next hfind =>
      split at h
      next hemp => exact absurd h (by simp)
      next hemp =>
        simp only [Option.some.injEq] at h
        subst h
        unfold standardize_city_ultra
        rw [ultraClean_fix, hfind]
        rw [if_neg hemp]
  · intro x
    cases halk : alookup cityMapCombined (combinedClean x) with
    | some v =>
      have hx : standardize_city_combined x = v := by
        unfold standardize_city_combined
        rw [halk]
      rw [hx]
      exact combined_vals_fixed _ (alookup_mem _ _ _ halk)
    | none =>
      have hx : standardize_city_combined x = combinedClean x := by
        unfold standardize_city_combined
        rw [halk]
      rw [hx]
      unfold standardize_city_combined
      rw [combinedClean_fix, halk]
  · intro x y h hne hq
    unfold clean_city_name at h
    split at h
    next => exact absurd h (by simp)
    next hguard =>
      split at h
      next v halk =>
        simp only [Option.some.injEq] at h
        subst h
        exact atlas_vals_fixed _ (alookup_mem _ _ _ halk)
      next halk =>
        simp only [Option.some.injEq] at h
        subst h
        obtain ⟨hst, hnsp, hnp⟩ := cleanCore_props (strip x) (strip_idem x)
        have hie : (cleanCore (strip x)).isEmpty = false := by
          cases hcc : cleanCore (strip x) with
          | nil => exact absurd hcc hne
          | cons a t => rfl
        unfold clean_city_name
        rw [hie, hst]
        simp only [Bool.false_or]
        rw [if_neg (by simpa using hq)]
        rw [cleanCore_fix _ hnsp hnp, halk]

/-- Witness for claim C8 (amended): concrete idempotence instances for the
three normalizers. -/
theorem claim_C8_witness :
    standardize_city_ultra ("北平".data) = some ("北平".data) ∧
    standardize_city_combined (standardize_city_combined ("京师".data)) =
      standardize_city_combined ("京师".data) ∧
    clean_city_name ("北京".data) = some ("北京".data) :=
  ⟨claim_C8_amended.1 ("北平市".data) ("北平".data) (by decide),
   claim_C8_amended.2.1 ("京师".data),
   claim_C8_amended.2.2 ("北平".data) ("北京".data) (by decide) (by decide)
     (by decide)⟩

/-- Counterexample for claim C9: the ultra `standardize_city` does NOT map
北平 to 北京 (北平 is itself a coordinate key, so it is returned unchanged)
and maps the unknown marker ？ to itself, not to None. -/
theorem claim_C9_counterexample :
    standardize_city_ultra ("北平".data) = some ("北平".data) ∧
    ("北平".data : List Char) ≠ "北京".data ∧
    standardize_city_ultra ("？".data) = some ("？".data) :=
  ⟨by decide, by decide, by decide⟩

/-- Claim C9 (amended): `clean_city_name` (generate_atlas.py) maps 北平 to
北京, 錦城 to 成都 and ？ to None; the ultra `standardize_city`
(generate_atlas_ultra.py), whose table maps aliases directly to coordinates,
returns 北平, 錦城 and ？ unchanged. -/
theorem claim_C9_amended :
    clean_city_name ("北平".data) = some ("北京".data) ∧
    clean_city_name ("錦城".data) = some ("成都".data) ∧
    clean_city_name ("？".data) = none ∧
    standardize_city_ultra ("北平".data) = some ("北平".data) ∧
    standardize_city_ultra ("錦城".data) = some ("錦城".data) ∧
    standardize_city_ultra ("？".data) = some ("？".data) := by
  refine ⟨by decide, by decide, by decide, by decide, by decide, by decide⟩
